import Mathlib

/-!
Verification of the event-sourcing core of the agentWeb repository
(src/python/event_core.py, view_materializer.py, agents.py).

Shallow embedding conventions:
* Python JSON-ish values are modelled by `JVal`; the code base only ever
  nests dictionaries one level deep (the `updates` payloads), so `JVal`
  objects hold `JLeaf` values.
* Python floats are modelled as exact integer fractions (`PyFloat`):
  all float arithmetic in the source is of the form `(a / b) * 100` on
  small integers, modelled here exactly.
* SHA-256 is modelled as the identity on the canonically serialized
  content: the digest of the canonical JSON string is taken to be that
  string itself.  This keeps the digest a deterministic, injective
  function of the serialized fields, which is the only property of the
  hash the code relies on.
* Python `dict`s are insertion-ordered association lists with unique
  keys; Python `set`s are insertion-ordered duplicate-free lists.
* Redis structures are modelled per their documented semantics: hashes
  as field maps, sets as membership lists, and the `events:by_time`
  sorted set as a list kept ordered by (score, member byte order), which
  is how Redis orders members with `ZADD`/`ZREVRANGE`.
-/

/-- A Python float value arising from exact integer arithmetic,
kept as an un-normalised fraction `fnum / fden`. -/
structure PyFloat where
  fnum : Int
  fden : Int
deriving DecidableEq

/-- The rational value of a modelled float. -/
def PyFloat.toRat (p : PyFloat) : ℚ := (p.fnum : ℚ) / (p.fden : ℚ)

/-- Scalar JSON values appearing in the code base. -/
inductive JLeaf where
  | jnull
  | jstr (s : String)
  | jint (n : Int)
  | jflo (q : PyFloat)
deriving DecidableEq

/-- JSON values stored in a Fact's `subject`/`payload` maps: either a
scalar or a flat dictionary of scalars (the `updates` payloads). -/
inductive JVal where
  | leaf (v : JLeaf)
  | obj (fs : List (String × JLeaf))
deriving DecidableEq

def JVal.str (s : String) : JVal := .leaf (.jstr s)

def JVal.int (n : Int) : JVal := .leaf (.jint n)

def JVal.flo (q : PyFloat) : JVal := .leaf (.jflo q)

def JVal.null : JVal := .leaf .jnull

/-- Python truthiness of a scalar. -/
def JLeaf.truthy : JLeaf → Bool
  | .jnull => false
  | .jstr s => !(s = "")
  | .jint n => !(n = 0)
  | .jflo q => !(q.fnum = 0)

/-- Python truthiness of a JSON value (`if not x` tests in the source). -/
def JVal.truthy : JVal → Bool
  | .leaf v => v.truthy
  | .obj fs => !(fs = [])

/-- Truthiness of an optional lookup result (missing keys give `None`). -/
def optTruthy : Option JVal → Bool
  | none => false
  | some v => v.truthy

/-- Byte-order comparison of characters (ASCII ids; matches both Python
string ordering and Redis member byte ordering on the ids used here). -/
def chListLt : List Char → List Char → Bool
  | [], [] => false
  | [], _ :: _ => true
  | _ :: _, [] => false
  | a :: as, b :: bs =>
    if a.toNat < b.toNat then true
    else if b.toNat < a.toNat then false
    else chListLt as bs

/-- Byte-order comparison of strings. -/
def strLt (a b : String) : Bool := chListLt a.data b.data

/-- JSON string escaping (backslash and quote; the ids and texts in this
code base contain no control characters). -/
def jsonEscapeChar (c : Char) : String :=
  if c = '\\' then "\\\\" else if c = '"' then "\\\"" else String.singleton c

def jsonEscape (s : String) : String := String.join (s.data.map jsonEscapeChar)

def serStr (s : String) : String := "\"" ++ jsonEscape s ++ "\""

/-- Serialization of a scalar as `json.dumps` renders it.  Modelled
floats are rendered as `num/den`; no fact signed by the code paths under
verification carries a float, so this rendering is never compared
against a Python-produced digest. -/
def serLeaf : JLeaf → String
  | .jnull => "null"
  | .jstr s => serStr s
  | .jint n => toString n
  | .jflo q => toString q.fnum ++ "/" ++ toString q.fden

/-- Stable insertion of a rendered field into a key-sorted field list. -/
def insertByKey (p : String × String) : List (String × String) → List (String × String)
  | [] => [p]
  | q :: rest => if strLt p.1 q.1 then p :: q :: rest else q :: insertByKey p rest

/-- Key-sorted rendering order, as `json.dumps(..., sort_keys=True)`
produces (dictionary keys are unique, so stability is irrelevant). -/
def sortByKey : List (String × String) → List (String × String)
  | [] => []
  | p :: rest => insertByKey p (sortByKey rest)

/-- Render a list of already-serialized fields as a JSON object with the
default `json.dumps` separators. -/
def serEntries (fs : List (String × String)) : String :=
  "\x7b" ++ String.intercalate ", " ((sortByKey fs).map (fun p => serStr p.1 ++ ": " ++ p.2)) ++ "\x7d"

def serJVal : JVal → String
  | .leaf v => serLeaf v
  | .obj fs => serEntries (fs.map (fun p => (p.1, serLeaf p.2)))

def serFields (fs : List (String × JVal)) : String :=
  serEntries (fs.map (fun p => (p.1, serJVal p.2)))

/-- The canonical key-sorted serialization of the signed content of a
Fact, exactly the dictionary `Event._generate_signature` hashes: keys
`caused_by, id, kind, payload, source, subject, ts` in sorted order. -/
def signatureContent (id : String) (ts : Int) (source kind : String)
    (subject payload : List (String × JVal)) (caused_by : Option String) : String :=
  "\x7b\"caused_by\": " ++ (match caused_by with | none => "null" | some c => serStr c)
    ++ ", \"id\": " ++ serStr id
    ++ ", \"kind\": " ++ serStr kind
    ++ ", \"payload\": " ++ serFields payload
    ++ ", \"source\": " ++ serStr source
    ++ ", \"subject\": " ++ serFields subject
    ++ ", \"ts\": " ++ toString ts
    ++ "\x7d"

/-- An Event (spec: Fact), mirroring `event_core.Event`'s eight fields. -/
structure Event where
  id : String
  ts : Int
  source : String
  kind : String
  subject : List (String × JVal)
  payload : List (String × JVal)
  caused_by : Option String
  sig : String
deriving DecidableEq

/-- `Event._generate_signature`: the digest over the canonical
serialization of the seven non-signature fields (SHA-256 modelled as the
serialized content itself, see the header comment). -/
def Event.generateSignature (e : Event) : String :=
  signatureContent e.id e.ts e.source e.kind e.subject e.payload e.caused_by

/-- `Event.verify_integrity`. -/
def Event.verifyIntegrity (e : Event) : Bool :=
  e.sig == e.generateSignature

/-- `Event.__init__`.  `genId`/`genTs` stand for the `uuid.uuid4()` and
`int(time.time() * 1000)` defaults; the Python `or`-defaulting also
replaces a falsy explicit argument (empty id, zero timestamp). -/
def Event.create (source kind : String) (subject payload : List (String × JVal))
    (event_id : Option String) (genId : String)
    (timestamp : Option Int) (genTs : Int)
    (caused_by : Option String) : Event :=
  let id := match event_id with
    | some s => if s = "" then genId else s
    | none => genId
  let ts := match timestamp with
    | some t => if t = 0 then genTs else t
    | none => genTs
  { id := id, ts := ts, source := source, kind := kind,
    subject := subject, payload := payload, caused_by := caused_by,
    sig := signatureContent id ts source kind subject payload caused_by }

/-- The dictionary produced by `Event.to_dict`. -/
structure EventDict where
  id : String
  ts : Int
  source : String
  kind : String
  subject : List (String × JVal)
  payload : List (String × JVal)
  caused_by : Option String
  sig : String
deriving DecidableEq

/-- `Event.to_dict`. -/
def Event.toDict (e : Event) : EventDict :=
  { id := e.id, ts := e.ts, source := e.source, kind := e.kind,
    subject := e.subject, payload := e.payload, caused_by := e.caused_by,
    sig := e.sig }

/-- `Event.from_dict`: constructs through `Event.__init__` (which
recomputes a signature, and regenerates falsy id/timestamp), then
overrides the signature with the stored one. -/
def Event.fromDict (d : EventDict) (genId : String) (genTs : Int) : Event :=
  { Event.create d.source d.kind d.subject d.payload (some d.id) genId (some d.ts) genTs d.caused_by
    with sig := d.sig }

/-! ## FactStore (`event_core.FactStore`)

The backing Redis instance is modelled by explicit state: the per-id
event keys, the per-kind sets, the `events:by_time` sorted set and the
per-project sets. -/

/-- Redis `SADD` on an insertion-ordered membership list. -/
def saddL (l : List String) (x : String) : List String :=
  if x ∈ l then l else l ++ [x]

/-- Add a member to the set held at a key of a keyed family of sets. -/
def saddAt (idx : List (String × List String)) (k x : String) : List (String × List String) :=
  match idx with
  | [] => [(k, [x])]
  | (k', l) :: rest => if k' = k then (k', saddL l x) :: rest else (k', l) :: saddAt rest k x

/-- As `saddAt`, for the per-project sets (the project reference in a
Fact's subject is an arbitrary JSON value). -/
def saddAtJ (idx : List (JVal × List String)) (k : JVal) (x : String) : List (JVal × List String) :=
  match idx with
  | [] => [(k, [x])]
  | (k', l) :: rest => if k' = k then (k', saddL l x) :: rest else (k', l) :: saddAtJ rest k x

/-- Strict (score, member) order of sorted-set entries: Redis orders
members by ascending score, equal scores by member byte order. -/
def zEntryLt (a b : String × Int) : Bool :=
  decide (a.2 < b.2) || (decide (a.2 = b.2) && strLt a.1 b.1)

/-- Insert an entry into an ordered sorted-set listing. -/
def zinsert (l : List (String × Int)) (m : String) (sc : Int) : List (String × Int) :=
  match l with
  | [] => [(m, sc)]
  | e :: rest => if zEntryLt (m, sc) e then (m, sc) :: e :: rest else e :: zinsert rest m sc

/-- Redis `ZADD`: reposition the member at its (score, member) rank. -/
def zadd (l : List (String × Int)) (m : String) (sc : Int) : List (String × Int) :=
  zinsert (l.filter (fun e => !(e.1 == m))) m sc

/-- Redis `ZREVRANGE key 0 stop`: descending (score, member) order; a
negative `stop` counts from the end (so `stop = -1` means the whole
range), and an over-long range is clamped. -/
def zrevrangeTo (l : List (String × Int)) (stop : Int) : List String :=
  let stop' := if stop < 0 then stop + l.length else stop
  if stop' < 0 then [] else (l.reverse.take (stop'.toNat + 1)).map (fun e => e.1)

/-- The FactStore state: Redis key spaces `event:{id}`, `events:kind:*`,
`events:by_time` and `events:project:*`. -/
structure FactStore where
  events : List (String × EventDict)
  kindIndex : List (String × List String)
  timeIndex : List (String × Int)
  projIndex : List (JVal × List String)
deriving DecidableEq

def FactStore.empty : FactStore :=
  { events := [], kindIndex := [], timeIndex := [], projIndex := [] }

/-- `FactStore.append`: refuse on integrity failure; succeed without
writing when the id already exists; otherwise store the serialized event
under its id and update the kind, time and (when the subject carries a
`projectId`) project indexes, atomically. -/
def FactStore.append (s : FactStore) (e : Event) : Bool × FactStore :=
  if !e.verifyIntegrity then (false, s)
  else if (s.events.lookup e.id).isSome then (true, s)
  else
    (true,
      { events := s.events ++ [(e.id, e.toDict)],
        kindIndex := saddAt s.kindIndex e.kind e.id,
        timeIndex := zadd s.timeIndex e.id e.ts,
        projIndex :=
          match e.subject.lookup "projectId" with
          | some p => saddAtJ s.projIndex p e.id
          | none => s.projIndex })

/-- `FactStore.get_by_id`: parse the stored dictionary back into an
Event (`genId`/`genTs` are the uuid/clock defaults `Event.__init__`
would fall back to for a falsy stored id/timestamp). -/
def FactStore.getById (s : FactStore) (eid : String) (genId : String) (genTs : Int) : Option Event :=
  (s.events.lookup eid).map (fun d => Event.fromDict d genId genTs)

/-- `FactStore.get_latest`: `ZREVRANGE events:by_time 0 limit-1`, then
fetch each id, dropping ids whose event fails to load. -/
def FactStore.getLatest (s : FactStore) (limit : Int) (genId : String) (genTs : Int) : List Event :=
  (zrevrangeTo s.timeIndex (limit - 1)).filterMap (fun eid => s.getById eid genId genTs)

/-! ## EventBroker (`event_core.EventBroker`)

`publish` first appends to the FactStore; only on success does it send
the serialized fact on the `events:{kind}` channel, from which the
pub/sub thread fans it out to the registered subscriber callbacks.  The
fan-out is represented by the list of (channel, message) pairs the call
emits; Redis transport errors after a successful append are not
modelled. -/

/-- `EventBroker.publish`: returns the success flag, the FactStore state
after the call, and the channel messages sent. -/
def EventBroker.publish (s : FactStore) (e : Event) :
    Bool × FactStore × List (String × EventDict) :=
  let r := s.append e
  if !r.1 then (false, r.2, [])
  else (true, r.2, [("events:" ++ e.kind, e.toDict)])

/-! ## ViewMaterializer (`view_materializer.ViewMaterializer`)

Projections live in a second Redis database: project hashes plus the
`projects` set, task hashes plus the per-project task sets and the
`tasks` set.  Redis hashes only accept scalar non-null field values;
`HSET` with a `None` or dict value raises in redis-py, aborting the
handler (the error is isolated by the delivery path), so a handler whose
mapping contains such a value leaves the views unchanged. -/

/-- Python `str()` of a JSON value, as interpolated into Redis keys. -/
def jvalFmt : JVal → String
  | .leaf .jnull => "None"
  | .leaf (.jstr s) => s
  | .leaf (.jint n) => toString n
  | .leaf (.jflo q) => toString q.fnum ++ "/" ++ toString q.fden
  | .obj fs => serEntries (fs.map (fun p => (p.1, serLeaf p.2)))

/-- Set one field of a Redis hash. -/
def hsetField (h : List (String × JVal)) (k : String) (v : JVal) : List (String × JVal) :=
  match h with
  | [] => [(k, v)]
  | (k', v') :: rest => if k' = k then (k', v) :: rest else (k', v') :: hsetField rest k v

/-- Redis `HSET key mapping=m`: merge the mapping into the hash,
overwriting common fields and keeping the rest. -/
def hsetMap (h : List (String × JVal)) (m : List (String × JVal)) : List (String × JVal) :=
  m.foldl (fun acc p => hsetField acc p.1 p.2) h

/-- Whether redis-py accepts every value of a mapping (scalar, not
`None`). -/
def storableMap (m : List (String × JVal)) : Bool :=
  m.all (fun p => match p.2 with
    | .leaf .jnull => false
    | .leaf _ => true
    | .obj _ => false)

/-- The view database. -/
structure ViewStore where
  projects : List (String × List (String × JVal))
  projectsSet : List String
  tasks : List (String × List (String × JVal))
  projectTasks : List (String × List String)
  tasksSet : List String
deriving DecidableEq

/-- Update the hash stored at `key` in a keyed family of hashes. -/
def hsetAt (hs : List (String × List (String × JVal))) (key : String) (m : List (String × JVal)) :
    List (String × List (String × JVal)) :=
  match hs with
  | [] => [(key, hsetMap [] m)]
  | (k, h) :: rest => if k = key then (k, hsetMap h m) :: rest else (k, h) :: hsetAt rest key m

/-- The `project_data` mapping `_handle_project_created` builds from a
ProjectCreated fact (`now` is `datetime.now().isoformat()`). -/
def projectDataOf (e : Event) (pid : JVal) (now : String) : List (String × JVal) :=
  [("projectId", pid),
   ("name", (e.payload.lookup "name").getD (.str "")),
   ("description", (e.payload.lookup "description").getD (.str "")),
   ("status", .str "active"),
   ("createdAt", (e.payload.lookup "createdAt").getD (.str now)),
   ("updatedAt", (e.payload.lookup "createdAt").getD (.str now))]

/-- `ViewMaterializer._handle_project_created`. -/
def ViewMaterializer.handleProjectCreated (vs : ViewStore) (e : Event) (now : String) : ViewStore :=
  match e.subject.lookup "projectId" with
  | none => vs
  | some pid =>
    if !pid.truthy then vs
    else
      let projectData := projectDataOf e pid now
      if !storableMap projectData then vs
      else
        { vs with
          projects := hsetAt vs.projects (jvalFmt pid) projectData,
          projectsSet := saddL vs.projectsSet (jvalFmt pid) }


/-- The `task_data` mapping `_handle_task_created` builds from a
TaskCreated fact. -/
def taskDataOf (e : Event) (tid pid : JVal) (now : String) : List (String × JVal) :=
  [("taskId", tid),
   ("projectId", pid),
   ("title", (e.payload.lookup "title").getD (.str "")),
   ("description", (e.payload.lookup "description").getD (.str "")),
   ("status", (e.payload.lookup "status").getD (.str "pending")),
   ("assignee", (e.payload.lookup "assignee").getD .null),
   ("createdAt", (e.payload.lookup "createdAt").getD (.str now)),
   ("updatedAt", (e.payload.lookup "createdAt").getD (.str now))]

/-- `ViewMaterializer._handle_task_created`. -/
def ViewMaterializer.handleTaskCreated (vs : ViewStore) (e : Event) (now : String) : ViewStore :=
  match e.subject.lookup "taskId", e.subject.lookup "projectId" with
  | some tid, some pid =>
    if !(tid.truthy && pid.truthy) then vs
    else
      let taskData := taskDataOf e tid pid now
      if !storableMap taskData then vs
      else
        { vs with
          tasks := hsetAt vs.tasks (jvalFmt tid) taskData,
          projectTasks := saddAt vs.projectTasks (jvalFmt pid) (jvalFmt tid),
          tasksSet := saddL vs.tasksSet (jvalFmt tid) }
  | _, _ => vs

/-! ## Event factories (`event_core.EventFactory`)

Only the factories invoked by the agents under verification are
modelled.  `genId`/`genTs`/`now` stand for `uuid.uuid4()`,
`int(time.time() * 1000)` and `datetime.now().isoformat()`. -/

def EventFactory.createProjectProgressCalculated (project_id : JVal) (progress : PyFloat)
    (completed_tasks total_tasks : Int) (source : String) (caused_by : Option String)
    (genId : String) (genTs : Int) (now : String) : Event :=
  Event.create source "ProjectProgressCalculated" [("projectId", project_id)]
    [("progress", .flo progress),
     ("completedTasks", .int completed_tasks),
     ("totalTasks", .int total_tasks),
     ("calculatedAt", .str now)]
    none genId none genTs caused_by

def EventFactory.createDependencyAdded (source_task_id target_task_id : JVal)
    (dependency_type : String) (source : String) (caused_by : Option String)
    (genId : String) (genTs : Int) (now : String) : Event :=
  Event.create source "DependencyAdded"
    [("sourceTaskId", source_task_id), ("targetTaskId", target_task_id)]
    [("dependencyType", .str dependency_type), ("createdAt", .str now)]
    none genId none genTs caused_by

def EventFactory.createInsightRaised (project_id : JVal) (message severity : String)
    (source : String) (caused_by : Option String) (additional_data : List (String × JVal))
    (genId : String) (genTs : Int) (now : String) : Event :=
  Event.create source "InsightRaised" [("projectId", project_id)]
    (hsetMap [("message", .str message), ("severity", .str severity), ("timestamp", .str now)]
      additional_data)
    none genId none genTs caused_by

/-! ## ProgressAgent (`agents.ProgressAgent`) -/

/-- Python `dict` assignment `d[k] = v` (update in place, insert at the
end). -/
def dictSet (d : List (JVal × JVal)) (k v : JVal) : List (JVal × JVal) :=
  match d with
  | [] => [(k, v)]
  | (k', v') :: rest => if k' = k then (k', v) :: rest else (k', v') :: dictSet rest k v

/-- `self.project_tasks.setdefault(pid, dict())[tid] = status` as the
source spells it out. -/
def setProjectTask (m : List (JVal × List (JVal × JVal))) (pid tid status : JVal) :
    List (JVal × List (JVal × JVal)) :=
  match m with
  | [] => [(pid, dictSet [] tid status)]
  | (k, d) :: rest =>
    if k = pid then (k, dictSet d tid status) :: rest
    else (k, d) :: setProjectTask rest pid tid status

/-- The ProgressAgent's private state: `projectId → (taskId → status)`. -/
structure ProgressAgent where
  projectTasks : List (JVal × List (JVal × JVal))
deriving DecidableEq

/-- `ProgressAgent._calculate_project_progress`: the published events
(each handed to `broker.publish`).  The progress float
`(completed / total) * 100` is the exact fraction
`completed * 100 / total`. -/
def ProgressAgent.calculateProjectProgress (st : ProgressAgent) (pid : JVal)
    (causedBy : String) (agentId : String) (genId : String) (genTs : Int) (now : String) :
    List Event :=
  match st.projectTasks.lookup pid with
  | none => []
  | some tasks =>
    let total := tasks.length
    if total = 0 then []
    else
      let completed := (tasks.filter (fun p => p.2 = JVal.str "completed")).length
      let progress : PyFloat := ⟨(completed : Int) * 100, (total : Int)⟩
      [EventFactory.createProjectProgressCalculated pid progress completed total
        agentId (some causedBy) genId genTs now]

/-- `ProgressAgent._handle_task_status_changed`. -/
def ProgressAgent.handleTaskStatusChanged (st : ProgressAgent) (e : Event)
    (agentId genId : String) (genTs : Int) (now : String) : ProgressAgent × List Event :=
  match e.subject.lookup "projectId", e.subject.lookup "taskId", e.payload.lookup "newStatus" with
  | some pid, some tid, some ns =>
    if !(pid.truthy && tid.truthy && ns.truthy) then (st, [])
    else
      let st' : ProgressAgent := ⟨setProjectTask st.projectTasks pid tid ns⟩
      (st', st'.calculateProjectProgress pid e.id agentId genId genTs now)
  | _, _, _ => (st, [])

/-- `ProgressAgent._handle_task_created`. -/
def ProgressAgent.handleTaskCreated (st : ProgressAgent) (e : Event)
    (agentId genId : String) (genTs : Int) (now : String) : ProgressAgent × List Event :=
  match e.subject.lookup "projectId", e.subject.lookup "taskId" with
  | some pid, some tid =>
    if !(pid.truthy && tid.truthy) then (st, [])
    else
      let status := (e.payload.lookup "status").getD (.str "pending")
      let st' : ProgressAgent := ⟨setProjectTask st.projectTasks pid tid status⟩
      (st', st'.calculateProjectProgress pid e.id agentId genId genTs now)
  | _, _ => (st, [])

/-- `ProgressAgent._process_event_impl`. -/
def ProgressAgent.processEventImpl (st : ProgressAgent) (e : Event)
    (agentId genId : String) (genTs : Int) (now : String) : ProgressAgent × List Event :=
  if e.kind = "TaskStatusChanged" then st.handleTaskStatusChanged e agentId genId genTs now
  else if e.kind = "TaskCreated" then st.handleTaskCreated e agentId genId genTs now
  else (st, [])

/-! ## RelationAgent (`agents.RelationAgent`) -/

/-- `deps.setdefault(task, set()).add(target)`: append-if-absent under
the task's key. -/
def updAddJ (adj : List (JVal × List JVal)) (k v : JVal) : List (JVal × List JVal) :=
  match adj with
  | [] => [(k, [v])]
  | (k', l) :: rest =>
    if k' = k then (k', if v ∈ l then l else l ++ [v]) :: rest
    else (k', l) :: updAddJ rest k v

/-- `self.task_dependencies.get(k, set())`. -/
def adjGet (adj : List (JVal × List JVal)) (k : JVal) : List JVal :=
  (adj.lookup k).getD []

/-- Keys of the adjacency map. -/
def adjKeys (adj : List (JVal × List JVal)) : List JVal :=
  (adj.map Prod.fst).dedup

/-- Fuel-measure weight of one unexpanded node. -/
def nodeWeight (adj : List (JVal × List JVal)) (k : JVal) : Nat :=
  2 + (adjGet adj k).length

/-- Remaining search work: total weight of map keys not yet visited.
Every recursive step of the depth-first searches below either shrinks
the pending list or knocks a key out of this sum, so this bounds the
recursion depth. -/
def searchMeasure (adj : List (JVal × List JVal)) (vis : List JVal) : Nat :=
  (((adjKeys adj).filter (fun k => !(k ∈ vis))).map (nodeWeight adj)).sum

/-- Fuel that provably suffices for a full search from any start node. -/
def dfsFuel (adj : List (JVal × List JVal)) : Nat :=
  searchMeasure adj [] + 1

mutual
/-- The recursive `dfs` of `RelationAgent._would_create_cycle`: search
from `cur` for `src`, marking visited nodes.  The fuel argument only
bounds the recursion depth; `dfsFuel` makes the 0 case unreachable. -/
def cycleNode (adj : List (JVal × List JVal)) (src : JVal) :
    Nat → JVal → List JVal → Bool × List JVal
  | 0, _, vis => (false, vis)
  | f + 1, cur, vis =>
    if cur = src then (true, vis)
    else if cur ∈ vis then (false, vis)
    else cycleDeps adj src f (adjGet adj cur) (cur :: vis)

/-- The `for dependent in ...: if dfs(dependent): return True` loop. -/
def cycleDeps (adj : List (JVal × List JVal)) (src : JVal) :
    Nat → List JVal → List JVal → Bool × List JVal
  | 0, _, vis => (false, vis)
  | _ + 1, [], vis => (false, vis)
  | f + 1, d :: ds, vis =>
    let r := cycleNode adj src f d vis
    if r.1 then (true, r.2) else cycleDeps adj src f ds r.2
end

/-- `RelationAgent._would_create_cycle(source, target)`: DFS from the
target looking for a path back to the source. -/
def RelationAgent.wouldCreateCycle (adj : List (JVal × List JVal))
    (source_task_id target_task_id : JVal) : Bool :=
  (cycleNode adj source_task_id (dfsFuel adj) target_task_id []).1

def isAlnumAscii (c : Char) : Bool :=
  (('a' ≤ c && c ≤ 'z') || ('A' ≤ c && c ≤ 'Z') || ('0' ≤ c && c ≤ '9'))

/-- Longest leading `[a-zA-Z0-9]+` run and the remaining characters. -/
def takeAlnum : List Char → List Char × List Char
  | [] => ([], [])
  | c :: cs =>
    if isAlnumAscii c then
      let r := takeAlnum cs
      (c :: r.1, r.2)
    else ([], c :: cs)

/-- Left-to-right non-overlapping matches of `task-([a-zA-Z0-9]+)`, as
`re.findall` produces them (fuel: the input length). -/
def scanTaskIds : Nat → List Char → List String
  | 0, _ => []
  | _ + 1, [] => []
  | f + 1, l =>
    match l with
    | 't' :: 'a' :: 's' :: 'k' :: '-' :: rest =>
      let pr := takeAlnum rest
      if pr.1 = [] then scanTaskIds f l.tail
      else ("task-" ++ String.mk pr.1) :: scanTaskIds f pr.2
    | _ => scanTaskIds f l.tail

/-- `RelationAgent._extract_task_mentions`. -/
def RelationAgent.extractTaskMentions (text : String) : List String :=
  let lower := text.data.map Char.toLower
  scanTaskIds lower.length lower

/-- The RelationAgent's private adjacency map. -/
structure RelationAgent where
  taskDeps : List (JVal × List JVal)
deriving DecidableEq

/-- The `for target_task_id in tasks_mentioned` loop of
`RelationAgent._analyze_task_for_dependencies`: skip self references,
skip cycle-closing edges, otherwise publish DependencyAdded and record
the edge.  `gen n` supplies the uuid/clock values of the n-th published
event. -/
def RelationAgent.analyzeLoop (tid : JVal) (eventId agentId : String)
    (gen : Nat → String × Int × String) :
    List JVal → Nat → List (JVal × List JVal) → List (JVal × List JVal) × List Event
  | [], _, adj => (adj, [])
  | tgt :: rest, n, adj =>
    if tgt = tid then RelationAgent.analyzeLoop tid eventId agentId gen rest n adj
    else if RelationAgent.wouldCreateCycle adj tid tgt then
      RelationAgent.analyzeLoop tid eventId agentId gen rest n adj
    else
      let g := gen n
      let ev := EventFactory.createDependencyAdded tid tgt "depends-on" agentId
        (some eventId) g.1 g.2.1 g.2.2
      let r := RelationAgent.analyzeLoop tid eventId agentId gen rest (n + 1) (updAddJ adj tid tgt)
      (r.1, ev :: r.2)

/-- `RelationAgent._analyze_task_for_dependencies`.  A non-dict
`updates` value or a non-string truthy description makes the Python
handler raise (`.get` / `re.findall` on the wrong type); the exception
is swallowed by `process_event`, leaving state unchanged and nothing
published, which is what the fallthrough cases return. -/
def RelationAgent.analyzeTaskForDependencies (st : RelationAgent) (e : Event)
    (agentId : String) (gen : Nat → String × Int × String) : RelationAgent × List Event :=
  match e.subject.lookup "taskId", e.subject.lookup "projectId" with
  | some tid, some pid =>
    if !(tid.truthy && pid.truthy) then (st, [])
    else
      let description : JVal :=
        if e.kind = "TaskCreated" then (e.payload.lookup "description").getD (.str "")
        else if e.kind = "TaskUpdated" then
          match (e.payload.lookup "updates").getD (.obj []) with
          | .obj fs => .leaf ((fs.lookup "description").getD (.jstr ""))
          | .leaf _ => .null
        else .str ""
      if !description.truthy then (st, [])
      else
        match description with
        | .leaf (.jstr text) =>
          let mentions := (RelationAgent.extractTaskMentions text).map JVal.str
          let r := RelationAgent.analyzeLoop tid e.id agentId gen mentions 0 st.taskDeps
          (⟨r.1⟩, r.2)
        | _ => (st, [])
  | _, _ => (st, [])

/-- `RelationAgent._process_event_impl`. -/
def RelationAgent.processEventImpl (st : RelationAgent) (e : Event)
    (agentId : String) (gen : Nat → String × Int × String) : RelationAgent × List Event :=
  if e.kind = "TaskCreated" ∨ e.kind = "TaskUpdated" then
    st.analyzeTaskForDependencies e agentId gen
  else (st, [])

/-! ## InsightAgent (`agents.InsightAgent`) -/

/-- Numeric view of a payload value, as the threshold comparisons read
it (a non-numeric progress raises in Python; the caller returns
nothing in that case). -/
def toPyFloat : JVal → Option PyFloat
  | .leaf (.jint n) => some ⟨n, 1⟩
  | .leaf (.jflo q) => some q
  | _ => none

/-- `a <= b` on modelled floats (denominators positive on every code
path that builds one). -/
def pfLe (a b : PyFloat) : Bool := decide (a.fnum * b.fden ≤ b.fnum * a.fden)

/-- `a < b` on modelled floats. -/
def pfLt (a b : PyFloat) : Bool := decide (a.fnum * b.fden < b.fnum * a.fden)

def pyInt (n : Int) : PyFloat := ⟨n, 1⟩

/-- Python `f"{x:.1f}"` for the non-negative progress values formatted
here: one decimal digit, ties rounded up (the tie direction is not load
bearing for any claim; only determinism is). -/
def fmt1 (p : PyFloat) : String :=
  let r := (20 * p.fnum + p.fden).tdiv (2 * p.fden)
  toString (r.tdiv 10) ++ "." ++ toString (r.tmod 10)

/-- The InsightAgent's private state: progress per project, a dependency
adjacency mirror, and the dedup set of raised insight keys. -/
structure InsightAgent where
  projectProgress : List (JVal × JVal)
  taskDeps : List (JVal × List JVal)
  insights : List String
deriving DecidableEq

/-- The `for insight in insights` publication loop of
`InsightAgent._check_project_progress`: skip keys already raised,
otherwise add the key and publish. -/
def InsightAgent.publishCandidates (pid : JVal) (causedBy agentId : String)
    (gen : Nat → String × Int × String) :
    List String → Nat → InsightAgent → InsightAgent × List Event
  | [], _, st => (st, [])
  | msg :: rest, n, st =>
    let key := jvalFmt pid ++ ":" ++ msg
    if key ∈ st.insights then
      InsightAgent.publishCandidates pid causedBy agentId gen rest n st
    else
      let g := gen n
      let ev := EventFactory.createInsightRaised pid msg "info" agentId (some causedBy) []
        g.1 g.2.1 g.2.2
      let r := InsightAgent.publishCandidates pid causedBy agentId gen rest (n + 1)
        { st with insights := st.insights ++ [key] }
      (r.1, ev :: r.2)

/-- The candidate threshold messages of
`InsightAgent._check_project_progress`, in emission order. -/
def progressCandidates (p : PyFloat) : List String :=
  (if pfLe (pyInt 80) p && pfLt p (pyInt 90) then
    ["Project is approaching completion (" ++ fmt1 p ++ "%)"] else [])
  ++ (if pfLe (pyInt 90) p then
    ["Project is nearly complete (" ++ fmt1 p ++ "%)"] else [])
  ++ (if pfLe p (pyInt 10) then
    ["Project has just started (" ++ fmt1 p ++ "%)"] else [])

/-- `InsightAgent._check_project_progress`. -/
def InsightAgent.checkProjectProgress (st : InsightAgent) (pid : JVal)
    (causedBy agentId : String) (gen : Nat → String × Int × String) :
    InsightAgent × List Event :=
  match st.projectProgress.lookup pid with
  | none => (st, [])
  | some progVal =>
    match toPyFloat progVal with
    | none => (st, [])
    | some p => InsightAgent.publishCandidates pid causedBy agentId gen (progressCandidates p) 0 st

/-- `InsightAgent._handle_progress_event`: requires a truthy projectId
and a non-`None` progress, updates the progress map, then checks the
thresholds. -/
def InsightAgent.handleProgressEvent (st : InsightAgent) (e : Event)
    (agentId : String) (gen : Nat → String × Int × String) : InsightAgent × List Event :=
  let progO : Option JVal :=
    match e.payload.lookup "progress" with
    | some (.leaf .jnull) => none
    | x => x
  match e.subject.lookup "projectId", progO with
  | some pid, some prog =>
    if !pid.truthy then (st, [])
    else
      InsightAgent.checkProjectProgress
        { st with projectProgress := dictSet st.projectProgress pid prog } pid e.id agentId gen
  | _, _ => (st, [])

mutual
/-- The recursive `dfs` of `InsightAgent._get_dependency_chain_length`:
0 for an already-visited node, otherwise one more than the maximum over
the node's dependencies (so a leaf scores 1). -/
def chainNode (adj : List (JVal × List JVal)) :
    Nat → JVal → List JVal → Nat × List JVal
  | 0, _, vis => (0, vis)
  | f + 1, cur, vis =>
    if cur ∈ vis then (0, vis)
    else
      let r := chainDeps adj f (adjGet adj cur) (cur :: vis)
      (r.1 + 1, r.2)

/-- The `max_length = max(max_length, dfs(dep))` loop. -/
def chainDeps (adj : List (JVal × List JVal)) :
    Nat → List JVal → List JVal → Nat × List JVal
  | 0, _, vis => (0, vis)
  | _ + 1, [], vis => (0, vis)
  | f + 1, d :: ds, vis =>
    let r := chainNode adj f d vis
    let r' := chainDeps adj f ds r.2
    (max r.1 r'.1, r'.2)
end

/-- `InsightAgent._get_dependency_chain_length`. -/
def InsightAgent.getDependencyChainLength (st : InsightAgent) (task_id : JVal) : Nat :=
  (chainNode st.taskDeps (dfsFuel st.taskDeps) task_id []).1

/-- `InsightAgent._check_dependency_insights`. -/
def InsightAgent.checkDependencyInsights (st : InsightAgent)
    (source_task_id _target_task_id : JVal) (causedBy agentId genId : String)
    (genTs : Int) (now : String) : InsightAgent × List Event :=
  if st.getDependencyChainLength source_task_id > 3 then
    if (jvalFmt source_task_id ++ ":dependency_chain") ∈ st.insights then (st, [])
    else
      ({ st with insights := st.insights ++ [jvalFmt source_task_id ++ ":dependency_chain"] },
        [EventFactory.createInsightRaised (.str "project-unknown")
          ("Task " ++ jvalFmt source_task_id ++ " has a long dependency chain ("
            ++ toString (st.getDependencyChainLength source_task_id) ++ " levels)")
          "warning" agentId (some causedBy)
          [("taskId", source_task_id),
           ("chainLength", .int (st.getDependencyChainLength source_task_id))]
          genId genTs now])
  else (st, [])

/-- `InsightAgent._handle_dependency_event`. -/
def InsightAgent.handleDependencyEvent (st : InsightAgent) (e : Event)
    (agentId genId : String) (genTs : Int) (now : String) : InsightAgent × List Event :=
  match e.subject.lookup "sourceTaskId", e.subject.lookup "targetTaskId" with
  | some srcT, some tgtT =>
    if !(srcT.truthy && tgtT.truthy) then (st, [])
    else
      InsightAgent.checkDependencyInsights { st with taskDeps := updAddJ st.taskDeps srcT tgtT }
        srcT tgtT e.id agentId genId genTs now
  | _, _ => (st, [])

/-! ## Supporting lemmas: lookups and the search measure -/

theorem mem_keys_of_lookup {α β : Type} [BEq α] [LawfulBEq α] {l : List (α × β)} {k : α} {v : β}
    (h : List.lookup k l = some v) : k ∈ l.map Prod.fst := by
  induction l with
  | nil => simp [List.lookup] at h
  | cons hd tl ih =>
    obtain ⟨a, b⟩ := hd
    rw [List.lookup] at h
    cases hbeq : k == a with
    | true =>
      simp only [beq_iff_eq] at hbeq
      simp [hbeq]
    | false =>
      rw [hbeq] at h
      simp [ih h]

theorem adjGet_ne_nil_mem_keys {adj : List (JVal × List JVal)} {k : JVal}
    (h : adjGet adj k ≠ []) : k ∈ adjKeys adj := by
  unfold adjGet at h
  cases hl : List.lookup k adj with
  | none => rw [hl] at h; simp at h
  | some l =>
    have := mem_keys_of_lookup hl
    simpa [adjKeys, List.mem_dedup] using this

theorem sum_filter_anti (w : JVal → Nat) (l : List JVal) {vis vis' : List JVal}
    (h : vis ⊆ vis') :
    ((l.filter (fun k => !(k ∈ vis'))).map w).sum ≤ ((l.filter (fun k => !(k ∈ vis))).map w).sum := by
  refine List.Sublist.sum_le_sum ?_ (by simp)
  refine List.Sublist.map w ?_
  refine List.monotone_filter_right l ?_
  intro a ha
  simp only [Bool.not_eq_true', decide_eq_false_iff_not] at ha ⊢
  exact fun hv => ha (h hv)

theorem searchMeasure_anti (adj : List (JVal × List JVal)) {vis vis' : List JVal}
    (h : vis ⊆ vis') : searchMeasure adj vis' ≤ searchMeasure adj vis :=
  sum_filter_anti (nodeWeight adj) (adjKeys adj) h

theorem sum_filter_drop (w : JVal → Nat) (l : List JVal) {k : JVal} {vis : List JVal}
    (hk : k ∈ l) (hnv : k ∉ vis) :
    ((l.filter (fun x => !(x ∈ k :: vis))).map w).sum + w k
      ≤ ((l.filter (fun x => !(x ∈ vis))).map w).sum := by
  induction l with
  | nil => simp at hk
  | cons hd tl ih =>
    by_cases hhd : hd = k
    · subst hhd
      simp only [List.filter_cons]
      rw [if_neg (by simp only [Bool.not_eq_true', decide_eq_false_iff_not, not_not]; exact List.mem_cons_self hd vis), if_pos (by simp only [Bool.not_eq_true', decide_eq_false_iff_not, not_not]; exact hnv)]
      simp only [List.map_cons, List.sum_cons]
      have := sum_filter_anti w tl (show vis ⊆ hd :: vis from fun x hx => List.mem_cons_of_mem hd hx)
      omega
    · have hk' : k ∈ tl := by
        rcases List.mem_cons.mp hk with h | h
        · exact absurd h.symm hhd
        · exact h
      by_cases hv : hd ∈ vis
      · have hv2 : hd ∈ k :: vis := List.mem_cons_of_mem k hv
        simp only [List.filter_cons]
        rw [if_neg (by simp only [Bool.not_eq_true', decide_eq_false_iff_not, not_not]; exact hv2), if_neg (by simp only [Bool.not_eq_true', decide_eq_false_iff_not, not_not]; exact hv)]
        exact ih hk'
      · have hv2 : ¬ hd ∈ k :: vis := by
          intro h
          rcases List.mem_cons.mp h with h | h
          · exact hhd h
          · exact hv h
        simp only [List.filter_cons]
        rw [if_pos (by simp only [Bool.not_eq_true', decide_eq_false_iff_not, not_not]; exact hv2), if_pos (by simp only [Bool.not_eq_true', decide_eq_false_iff_not, not_not]; exact hv)]
        simp only [List.map_cons, List.sum_cons]
        have := ih hk'
        omega

theorem searchMeasure_drop (adj : List (JVal × List JVal)) {k : JVal} {vis : List JVal}
    (hk : k ∈ adjKeys adj) (hnv : k ∉ vis) :
    searchMeasure adj (k :: vis) + nodeWeight adj k ≤ searchMeasure adj vis :=
  sum_filter_drop (nodeWeight adj) (adjKeys adj) hk hnv

/-! ## Reachability and correctness of `_would_create_cycle` -/

/-- A directed dependency edge in an adjacency map. -/
def Edge (adj : List (JVal × List JVal)) (x y : JVal) : Prop := y ∈ adjGet adj x

/-- Reachability along dependency edges. -/
inductive Reaches (adj : List (JVal × List JVal)) : JVal → JVal → Prop
  | refl (x : JVal) : Reaches adj x x
  | step {x y z : JVal} : Edge adj x y → Reaches adj y z → Reaches adj x z

theorem Reaches.trans {adj : List (JVal × List JVal)} {a b c : JVal}
    (h1 : Reaches adj a b) (h2 : Reaches adj b c) : Reaches adj a c := by
  induction h1 with
  | refl => exact h2
  | step e _ ih => exact .step e (ih h2)

/-- No edge closes a path back to its own source. -/
def Acyclic (adj : List (JVal × List JVal)) : Prop :=
  ∀ x y, Edge adj x y → ¬ Reaches adj y x

/-- Invariant delivered by a failed search: every visited node is fully
explored (all successors visited) and distinct from the searched-for
source. -/
def SearchClosed (adj : List (JVal × List JVal)) (src : JVal) (vis vis' : List JVal) : Prop :=
  ∀ w ∈ vis', w ∈ vis ∨ (w ≠ src ∧ ∀ d ∈ adjGet adj w, d ∈ vis')

theorem cycleSearch_complete (adj : List (JVal × List JVal)) (src : JVal) : ∀ f : Nat,
    (∀ cur vis vis', src ∉ vis → searchMeasure adj vis + 1 ≤ f →
      cycleNode adj src f cur vis = (false, vis') →
      vis ⊆ vis' ∧ cur ∈ vis' ∧ cur ≠ src ∧ SearchClosed adj src vis vis')
    ∧ (∀ ds vis vis', src ∉ vis → searchMeasure adj vis + ds.length + 1 ≤ f →
      cycleDeps adj src f ds vis = (false, vis') →
      vis ⊆ vis' ∧ (∀ d ∈ ds, d ∈ vis' ∧ d ≠ src) ∧ SearchClosed adj src vis vis') := by
  intro f
  induction f with
  | zero =>
    constructor
    · intro cur vis vis' _ hb; omega
    · intro ds vis vis' _ hb _; omega
  | succ f ih =>
    obtain ⟨ihN, ihD⟩ := ih
    constructor
    · intro cur vis vis' hsrc hb hrun
      rw [cycleNode] at hrun
      by_cases h1 : cur = src
      · simp [h1] at hrun
      · by_cases h2 : cur ∈ vis
        · simp only [h1, h2, if_true, if_false, Prod.mk.injEq, if_neg] at hrun
          obtain ⟨-, hrun⟩ := hrun
          subst hrun
          exact ⟨fun x hx => hx, h2, h1, fun w hw => Or.inl hw⟩
        · simp only [h1, h2, if_false, if_neg] at hrun
          rcases hds : adjGet adj cur with _ | ⟨d, ds'⟩
          · rw [hds] at hrun
            have hvis' : cur :: vis = vis' := by
              cases f <;> · simp only [cycleDeps, Prod.mk.injEq] at hrun; exact hrun.2
            subst hvis'
            refine ⟨fun x hx => List.mem_cons_of_mem cur hx, List.mem_cons_self cur vis, h1, ?_⟩
            intro w hw
            rcases List.mem_cons.mp hw with hwc | hwv
            · subst hwc
              exact Or.inr ⟨h1, by simp [hds]⟩
            · exact Or.inl hwv
          · have hkeys : cur ∈ adjKeys adj := adjGet_ne_nil_mem_keys (by simp [hds])
            have hdrop := searchMeasure_drop adj hkeys h2
            have hwt : nodeWeight adj cur = 2 + (adjGet adj cur).length := rfl
            rw [hds] at hwt hrun
            have hsrc' : src ∉ cur :: vis := by
              intro h
              rcases List.mem_cons.mp h with h | h
              · exact h1 h.symm
              · exact hsrc h
            have hb' : searchMeasure adj (cur :: vis) + (d :: ds').length + 1 ≤ f := by
              simp only [List.length_cons] at hwt ⊢
              omega
            obtain ⟨hsub, hall, hcl⟩ := ihD (d :: ds') (cur :: vis) vis' hsrc' hb' hrun
            refine ⟨fun x hx => hsub (List.mem_cons_of_mem cur hx),
              hsub (List.mem_cons_self cur vis), h1, ?_⟩
            intro w hw
            rcases hcl w hw with hwv | hrh
            · rcases List.mem_cons.mp hwv with hwc | hwv
              · subst hwc
                refine Or.inr ⟨h1, ?_⟩
                intro d' hd'
                rw [hds] at hd'
                exact (hall d' hd').1
              · exact Or.inl hwv
            · exact Or.inr hrh
    · intro ds vis vis' hsrc hb hrun
      cases ds with
      | nil =>
        have hvis' : vis = vis' := by
          cases f <;> · simp only [cycleDeps, Prod.mk.injEq] at hrun; exact hrun.2
        subst hvis'
        exact ⟨fun x hx => hx, by simp, fun w hw => Or.inl hw⟩
      | cons d ds' =>
        rw [cycleDeps] at hrun
        by_cases hr1 : (cycleNode adj src f d vis).1 = true
        · simp only [hr1, if_true] at hrun
          exact absurd (congrArg Prod.fst hrun) (by simp)
        · simp only [Bool.not_eq_true] at hr1
          simp only [hr1, Bool.false_eq_true, if_false] at hrun
          have hnode : cycleNode adj src f d vis = (false, (cycleNode adj src f d vis).2) := by
            rw [← hr1]
          obtain ⟨hsub1, hd1, hdne, hcl1⟩ := ihN d vis (cycleNode adj src f d vis).2 hsrc
            (by simp only [List.length_cons] at hb; omega) hnode
          have hsrc2 : src ∉ (cycleNode adj src f d vis).2 := by
            intro hs
            rcases hcl1 src hs with h | h
            · exact hsrc h
            · exact h.1 rfl
          have hb2 : searchMeasure adj (cycleNode adj src f d vis).2 + ds'.length + 1 ≤ f := by
            have := searchMeasure_anti adj hsub1
            simp only [List.length_cons] at hb
            omega
          obtain ⟨hsub2, hall2, hcl2⟩ := ihD ds' (cycleNode adj src f d vis).2 vis' hsrc2 hb2 hrun
          refine ⟨fun x hx => hsub2 (hsub1 hx), ?_, ?_⟩
          · intro d'' hd''
            rcases List.mem_cons.mp hd'' with hd'' | hd''
            · subst hd''
              exact ⟨hsub2 hd1, hdne⟩
            · exact hall2 d'' hd''
          · intro w hw
            rcases hcl2 w hw with hw2 | hrh
            · rcases hcl1 w hw2 with hwv | hrh1
              · exact Or.inl hwv
              · exact Or.inr ⟨hrh1.1, fun d' hd' => hsub2 (hrh1.2 d' hd')⟩
            · exact Or.inr hrh

theorem cycleSearch_sound (adj : List (JVal × List JVal)) (src : JVal) : ∀ f : Nat,
    (∀ cur vis, (cycleNode adj src f cur vis).1 = true → Reaches adj cur src)
    ∧ (∀ ds vis, (cycleDeps adj src f ds vis).1 = true → ∃ d ∈ ds, Reaches adj d src) := by
  intro f
  induction f with
  | zero => constructor <;> · intro _ _ h; simp [cycleNode, cycleDeps] at h
  | succ f ih =>
    obtain ⟨ihN, ihD⟩ := ih
    constructor
    · intro cur vis h
      rw [cycleNode] at h
      by_cases h1 : cur = src
      · exact h1 ▸ Reaches.refl cur
      · by_cases h2 : cur ∈ vis
        · simp [h1, h2] at h
        · simp only [h1, h2, if_false, if_neg] at h
          obtain ⟨d, hd, hr⟩ := ihD _ _ h
          exact Reaches.step hd hr
    · intro ds vis h
      cases ds with
      | nil => cases f <;> simp [cycleDeps] at h
      | cons d ds' =>
        rw [cycleDeps] at h
        by_cases hr1 : (cycleNode adj src f d vis).1 = true
        · exact ⟨d, List.mem_cons_self d ds', ihN _ _ hr1⟩
        · simp only [Bool.not_eq_true] at hr1
          simp only [hr1, Bool.false_eq_true, if_false] at h
          obtain ⟨d', hd', hrr⟩ := ihD _ _ h
          exact ⟨d', List.mem_cons_of_mem d hd', hrr⟩

/-- The rejection test of `_analyze_task_for_dependencies` fires exactly
when the agent's DFS can reach the source from the target. -/
theorem wouldCreateCycle_iff_reaches (adj : List (JVal × List JVal)) (s t : JVal) :
    RelationAgent.wouldCreateCycle adj s t = true ↔ Reaches adj t s := by
  constructor
  · intro h
    exact (cycleSearch_sound adj s (dfsFuel adj)).1 t [] h
  · intro hre
    by_contra hfalse
    simp only [Bool.not_eq_true] at hfalse
    unfold RelationAgent.wouldCreateCycle at hfalse
    have hrun : cycleNode adj s (dfsFuel adj) t []
        = (false, (cycleNode adj s (dfsFuel adj) t []).2) := by
      rw [← hfalse]
    obtain ⟨-, htv, -, hcl⟩ := (cycleSearch_complete adj s (dfsFuel adj)).1 t []
      (cycleNode adj s (dfsFuel adj) t []).2 (by simp) (le_refl _) hrun
    have hstay : ∀ a b, Reaches adj a b →
        a ∈ (cycleNode adj s (dfsFuel adj) t []).2 → b ∈ (cycleNode adj s (dfsFuel adj) t []).2 := by
      intro a b hab
      induction hab with
      | refl => exact id
      | step e _ ih =>
        intro ha
        rcases hcl _ ha with h | h
        · simp at h
        · exact ih (h.2 _ e)
    have hs := hstay t s hre htv
    rcases hcl s hs with h | h
    · simp at h
    · exact h.1 rfl

/-! ## Acyclicity is preserved by the RelationAgent -/

theorem adjGet_nil (x : JVal) : adjGet [] x = [] := by
  simp [adjGet, List.lookup]

theorem adjGet_cons (k' : JVal) (l : List JVal) (tl : List (JVal × List JVal)) (x : JVal) :
    adjGet ((k', l) :: tl) x = if x = k' then l else adjGet tl x := by
  unfold adjGet
  rw [List.lookup]
  cases hbeq : x == k' with
  | true =>
    have heq : x = k' := by simpa using hbeq
    simp [heq]
  | false =>
    have hne : ¬ x = k' := by
      intro h
      subst h
      simp at hbeq
    simp [hne]

theorem adjGet_updAddJ (adj : List (JVal × List JVal)) (k v x : JVal) :
    adjGet (updAddJ adj k v) x =
      if x = k then (if v ∈ adjGet adj k then adjGet adj k else adjGet adj k ++ [v])
      else adjGet adj x := by
  induction adj with
  | nil =>
    by_cases hx : x = k <;> simp [updAddJ, adjGet_cons, adjGet_nil, hx]
  | cons hd tl ih =>
    obtain ⟨k', l⟩ := hd
    by_cases hk : k' = k
    · subst hk
      rw [updAddJ, if_pos rfl]
      by_cases hx : x = k'
      · subst hx
        simp [adjGet_cons]
      · simp [adjGet_cons, hx]
    · rw [updAddJ, if_neg hk]
      by_cases hx : x = k'
      · subst hx
        have hxk : ¬ x = k := fun h => hk (h ▸ rfl)
        simp [adjGet_cons, hxk, hk, Ne.symm hk]
      · have : ¬ k = k' := fun h => hk h.symm
        simp only [adjGet_cons, hx, if_neg, if_false]
        rw [ih]
        by_cases hxk : x = k <;> simp [hxk, this]

theorem edge_updAddJ {adj : List (JVal × List JVal)} {k v x y : JVal} :
    Edge (updAddJ adj k v) x y ↔ Edge adj x y ∨ (x = k ∧ y = v) := by
  unfold Edge
  rw [adjGet_updAddJ]
  by_cases hx : x = k
  · subst hx
    rw [if_pos rfl]
    by_cases hv : v ∈ adjGet adj x
    · rw [if_pos hv]
      constructor
      · exact fun h => Or.inl h
      · rintro (h | ⟨-, rfl⟩)
        · exact h
        · exact hv
    · rw [if_neg hv, List.mem_append, List.mem_singleton]
      constructor
      · rintro (h | h)
        · exact Or.inl h
        · exact Or.inr ⟨rfl, h⟩
      · rintro (h | ⟨-, h⟩)
        · exact Or.inl h
        · exact Or.inr h
  · rw [if_neg hx]
    constructor
    · exact fun h => Or.inl h
    · rintro (h | ⟨h, -⟩)
      · exact h
      · exact absurd h hx

theorem reaches_updAddJ {adj : List (JVal × List JVal)} {s t : JVal}
    (hns : ¬ Reaches adj t s) {x y : JVal} (h : Reaches (updAddJ adj s t) x y) :
    Reaches adj x y ∨ (Reaches adj x s ∧ Reaches adj t y) := by
  induction h with
  | refl z => exact Or.inl (Reaches.refl z)
  | step e _ ih =>
    rcases edge_updAddJ.mp e with he | he
    · rcases ih with hr | hr
      · exact Or.inl (Reaches.step he hr)
      · exact Or.inr ⟨Reaches.step he hr.1, hr.2⟩
    · rcases ih with hr | hr
      · exact Or.inr ⟨he.1 ▸ Reaches.refl _, he.2 ▸ hr⟩
      · exact absurd (he.2 ▸ hr.1) hns

/-- Recording an edge whose reverse path the DFS ruled out keeps the
adjacency map acyclic. -/
theorem acyclic_updAddJ {adj : List (JVal × List JVal)} {s t : JVal}
    (hac : Acyclic adj) (hns : ¬ Reaches adj t s) : Acyclic (updAddJ adj s t) := by
  intro x y he hre
  rcases edge_updAddJ.mp he with hold | hnew
  · rcases reaches_updAddJ hns hre with hr | hr
    · exact hac x y hold hr
    · exact hns (hr.2.trans (Reaches.step hold hr.1))
  · obtain ⟨rfl, rfl⟩ := hnew
    rcases reaches_updAddJ hns hre with hr | hr
    · exact hns hr
    · exact hns hr.1

theorem analyzeLoop_acyclic (tid : JVal) (eventId agentId : String)
    (gen : Nat → String × Int × String) :
    ∀ (targets : List JVal) (n : Nat) (adj : List (JVal × List JVal)),
      Acyclic adj →
      Acyclic (RelationAgent.analyzeLoop tid eventId agentId gen targets n adj).1 := by
  intro targets
  induction targets with
  | nil => intro n adj hac; simpa [RelationAgent.analyzeLoop] using hac
  | cons tgt rest ih =>
    intro n adj hac
    rw [RelationAgent.analyzeLoop]
    by_cases h1 : tgt = tid
    · simp only [h1, if_pos rfl]
      exact ih n adj hac
    · simp only [h1, if_false, if_neg]
      by_cases h2 : RelationAgent.wouldCreateCycle adj tid tgt = true
      · simp only [h2, if_pos]
        exact ih n adj hac
      · simp only [Bool.not_eq_true] at h2
        simp only [h2, Bool.false_eq_true, if_false]
        have hnr : ¬ Reaches adj tgt tid := by
          intro hre
          rw [← wouldCreateCycle_iff_reaches adj tid tgt] at hre
          rw [h2] at hre
          exact Bool.false_ne_true hre
        exact ih (n + 1) (updAddJ adj tid tgt) (acyclic_updAddJ hac hnr)

/-- Every branch of `_analyze_task_for_dependencies` preserves
acyclicity of the agent's adjacency map. -/
theorem analyze_acyclic (st : RelationAgent) (e : Event) (agentId : String)
    (gen : Nat → String × Int × String) (hac : Acyclic st.taskDeps) :
    Acyclic (st.analyzeTaskForDependencies e agentId gen).1.taskDeps := by
  unfold RelationAgent.analyzeTaskForDependencies
  cases e.subject.lookup "taskId" with
  | none => exact hac
  | some tid =>
    cases e.subject.lookup "projectId" with
    | none => exact hac
    | some pid =>
      simp only
      by_cases hg : (tid.truthy && pid.truthy) = true
      · simp only [hg, Bool.not_true, Bool.false_eq_true, if_false]
        generalize (if e.kind = "TaskCreated" then (e.payload.lookup "description").getD (.str "")
          else if e.kind = "TaskUpdated" then
            match (e.payload.lookup "updates").getD (.obj []) with
            | .obj fs => JVal.leaf ((fs.lookup "description").getD (.jstr ""))
            | .leaf _ => JVal.null
          else .str "") = desc
        by_cases ht : desc.truthy = true
        · simp only [ht, Bool.not_true, Bool.false_eq_true, if_false]
          cases desc with
          | leaf v =>
            cases v with
            | jstr text => exact analyzeLoop_acyclic tid e.id agentId gen _ 0 st.taskDeps hac
            | jnull => exact hac
            | jint n => exact hac
            | jflo q => exact hac
          | obj fs => exact hac
        · simp only [Bool.not_eq_true] at ht
          simp only [ht, Bool.not_false, if_true]
          exact hac
      · simp only [Bool.not_eq_true] at hg
        simp only [hg, Bool.not_false, if_true]
        exact hac

/-- Dispatch-level acyclicity preservation for the RelationAgent. -/
theorem relationAgent_acyclic (st : RelationAgent) (e : Event) (agentId : String)
    (gen : Nat → String × Int × String) (hac : Acyclic st.taskDeps) :
    Acyclic (st.processEventImpl e agentId gen).1.taskDeps := by
  unfold RelationAgent.processEventImpl
  by_cases hk : e.kind = "TaskCreated" ∨ e.kind = "TaskUpdated"
  · simp only [hk, if_pos]
    exact analyze_acyclic st e agentId gen hac
  · simp only [hk, if_neg, if_false]
    exact hac

/-! ## The dependency-chain DFS: termination and meaning of its value -/

/-- A dependency chain: consecutive nodes joined by adjacency edges. -/
def DepChain (adj : List (JVal × List JVal)) (c : List JVal) : Prop :=
  List.Chain' (Edge adj) c

theorem chainNode_visited (adj : List (JVal × List JVal)) (f : Nat) (cur : JVal)
    (vis : List JVal) (h : cur ∈ vis) : chainNode adj f cur vis = (0, vis) := by
  cases f with
  | zero => rfl
  | succ f => rw [chainNode, if_pos h]

theorem chainDeps_nil (adj : List (JVal × List JVal)) (f : Nat) (vis : List JVal) :
    chainDeps adj f [] vis = (0, vis) := by
  cases f <;> rfl

theorem chain_mono (adj : List (JVal × List JVal)) : ∀ f : Nat,
    (∀ cur vis, vis ⊆ (chainNode adj f cur vis).2)
    ∧ (∀ ds vis, vis ⊆ (chainDeps adj f ds vis).2) := by
  intro f
  induction f with
  | zero => exact ⟨fun _ _ x hx => hx, fun _ _ x hx => hx⟩
  | succ f ih =>
    obtain ⟨ihN, ihD⟩ := ih
    constructor
    · intro cur vis
      rw [chainNode]
      by_cases h : cur ∈ vis
      · rw [if_pos h]
        exact fun x hx => hx
      · rw [if_neg h]
        exact fun x hx => ihD (adjGet adj cur) (cur :: vis) (List.mem_cons_of_mem cur hx)
    · intro ds vis
      cases ds with
      | nil =>
        rw [chainDeps_nil]
        exact fun x hx => hx
      | cons d ds' =>
        rw [chainDeps]
        exact fun x hx => ihD ds' (chainNode adj f d vis).2 (ihN d vis hx)

theorem chain_fuel_irrel (adj : List (JVal × List JVal)) : ∀ f : Nat,
    (∀ g cur vis, searchMeasure adj vis + 1 ≤ f → searchMeasure adj vis + 1 ≤ g →
      chainNode adj f cur vis = chainNode adj g cur vis)
    ∧ (∀ g ds vis, searchMeasure adj vis + ds.length + 1 ≤ f →
      searchMeasure adj vis + ds.length + 1 ≤ g →
      chainDeps adj f ds vis = chainDeps adj g ds vis) := by
  intro f
  induction f with
  | zero =>
    constructor
    · intro g cur vis hb; omega
    · intro g ds vis hb; omega
  | succ f ih =>
    obtain ⟨ihN, ihD⟩ := ih
    constructor
    · intro g cur vis hbf hbg
      cases g with
      | zero => omega
      | succ g =>
        rw [chainNode, chainNode]
        by_cases h : cur ∈ vis
        · rw [if_pos h, if_pos h]
        · rw [if_neg h, if_neg h]
          rcases hds : adjGet adj cur with _ | ⟨d, ds'⟩
          · rw [chainDeps_nil, chainDeps_nil]
          · have hkeys : cur ∈ adjKeys adj := adjGet_ne_nil_mem_keys (by simp [hds])
            have hdrop := searchMeasure_drop adj hkeys h
            have hwt : nodeWeight adj cur = 2 + (adjGet adj cur).length := rfl
            rw [hds] at hwt
            have heq := ihD g (d :: ds') (cur :: vis)
              (by simp only [List.length_cons] at hwt ⊢; omega)
              (by simp only [List.length_cons] at hwt ⊢; omega)
            rw [heq]
    · intro g ds vis hbf hbg
      cases ds with
      | nil => rw [chainDeps_nil, chainDeps_nil]
      | cons d ds' =>
        cases g with
        | zero => omega
        | succ g =>
          rw [chainDeps, chainDeps]
          have hnode := ihN g d vis
            (by simp only [List.length_cons] at hbf; omega)
            (by simp only [List.length_cons] at hbg; omega)
          rw [hnode]
          have hmono := (chain_mono adj g).1 d vis
          have hanti := searchMeasure_anti adj hmono
          have hdeps := ihD g ds' (chainNode adj g d vis).2
            (by simp only [List.length_cons] at hbf; omega)
            (by simp only [List.length_cons] at hbg; omega)
          rw [hdeps]

theorem chain_realizable (adj : List (JVal × List JVal)) : ∀ f : Nat,
    (∀ cur vis, cur ∉ vis → searchMeasure adj vis + 1 ≤ f →
      ∃ c : List JVal, c.head? = some cur ∧ DepChain adj c
        ∧ c.length = (chainNode adj f cur vis).1 ∧ ∀ x ∈ c, x ∉ vis)
    ∧ (∀ ds vis, searchMeasure adj vis + ds.length + 1 ≤ f →
      (chainDeps adj f ds vis).1 = 0
      ∨ ∃ d ∈ ds, ∃ c : List JVal, c.head? = some d ∧ DepChain adj c
        ∧ c.length = (chainDeps adj f ds vis).1 ∧ ∀ x ∈ c, x ∉ vis) := by
  intro f
  induction f with
  | zero =>
    constructor
    · intro cur vis _ hb; omega
    · intro ds vis hb; omega
  | succ f ih =>
    obtain ⟨ihN, ihD⟩ := ih
    constructor
    · intro cur vis hcur hb
      have hred : chainNode adj (f + 1) cur vis
          = ((chainDeps adj f (adjGet adj cur) (cur :: vis)).1 + 1,
             (chainDeps adj f (adjGet adj cur) (cur :: vis)).2) := by
        rw [chainNode, if_neg hcur]
      rw [hred]
      rcases hds : adjGet adj cur with _ | ⟨d, ds'⟩
      · rw [chainDeps_nil]
        refine ⟨[cur], rfl, List.chain'_singleton cur, rfl, ?_⟩
        intro x hx
        rcases List.mem_singleton.mp hx with rfl
        exact hcur
      · have hkeys : cur ∈ adjKeys adj := adjGet_ne_nil_mem_keys (by simp [hds])
        have hdrop := searchMeasure_drop adj hkeys hcur
        have hwt : nodeWeight adj cur = 2 + (adjGet adj cur).length := rfl
        rw [hds] at hwt
        have hbd : searchMeasure adj (cur :: vis) + (d :: ds').length + 1 ≤ f := by
          simp only [List.length_cons] at hwt ⊢; omega
        rcases ihD (d :: ds') (cur :: vis) hbd with hz | ⟨d', hd', c', hh, hch, hlen, havoid⟩
        · rw [hz]
          refine ⟨[cur], rfl, List.chain'_singleton cur, rfl, ?_⟩
          intro x hx
          rcases List.mem_singleton.mp hx with rfl
          exact hcur
        · refine ⟨cur :: c', rfl, ?_, ?_, ?_⟩
          · rw [DepChain, List.chain'_cons']
            refine ⟨?_, hch⟩
            intro y hy
            rw [hh] at hy
            rcases Option.mem_some_iff.mp hy with rfl
            show d' ∈ adjGet adj cur
            rw [hds]
            exact hd'
          · simp only [List.length_cons, hlen]
          · intro x hx
            rcases List.mem_cons.mp hx with rfl | hx
            · exact hcur
            · exact fun hv => havoid x hx (List.mem_cons_of_mem cur hv)
    · intro ds vis hb
      cases ds with
      | nil => rw [chainDeps_nil]; exact Or.inl rfl
      | cons d ds' =>
        have hred : chainDeps adj (f + 1) (d :: ds') vis
            = (max (chainNode adj f d vis).1 (chainDeps adj f ds' (chainNode adj f d vis).2).1,
               (chainDeps adj f ds' (chainNode adj f d vis).2).2) := by
          rw [chainDeps]
        rw [hred]
        by_cases hmax : max (chainNode adj f d vis).1
            (chainDeps adj f ds' (chainNode adj f d vis).2).1 = 0
        · exact Or.inl hmax
        · right
          by_cases hord : (chainDeps adj f ds' (chainNode adj f d vis).2).1
              ≤ (chainNode adj f d vis).1
          · have hm : max (chainNode adj f d vis).1
                (chainDeps adj f ds' (chainNode adj f d vis).2).1
                = (chainNode adj f d vis).1 := Nat.max_eq_left hord
            have hdvis : d ∉ vis := by
              intro hdv
              rw [chainNode_visited adj f d vis hdv] at hmax hord
              simp at hmax hord
              omega
            obtain ⟨c, hh, hch, hlen, havoid⟩ := ihN d vis hdvis
              (by simp only [List.length_cons] at hb; omega)
            refine ⟨d, List.mem_cons_self d ds', c, hh, hch, ?_, havoid⟩
            show c.length = (max (chainNode adj f d vis).1
              (chainDeps adj f ds' (chainNode adj f d vis).2).1, (chainDeps adj f ds' (chainNode adj f d vis).2).2).1
            rw [hm]
            exact hlen
          · have hord' : (chainNode adj f d vis).1
                < (chainDeps adj f ds' (chainNode adj f d vis).2).1 := Nat.lt_of_not_le hord
            have hm : max (chainNode adj f d vis).1
                (chainDeps adj f ds' (chainNode adj f d vis).2).1
                = (chainDeps adj f ds' (chainNode adj f d vis).2).1 :=
              Nat.max_eq_right (Nat.le_of_lt hord')
            have hmono := (chain_mono adj f).1 d vis
            have hanti := searchMeasure_anti adj hmono
            rcases ihD ds' (chainNode adj f d vis).2
              (by simp only [List.length_cons] at hb; omega)
              with hz | ⟨d', hd', c, hh, hch, hlen, havoid⟩
            · omega
            · refine ⟨d', List.mem_cons_of_mem d hd', c, hh, hch, ?_, ?_⟩
              · show c.length = (max (chainNode adj f d vis).1
                  (chainDeps adj f ds' (chainNode adj f d vis).2).1, (chainDeps adj f ds' (chainNode adj f d vis).2).2).1
                rw [hm]
                exact hlen
              · intro x hx
                exact fun hv => havoid x hx (hmono hv)

/-! ## Order lemmas for the time sorted set -/

theorem char_toNat_inj {a b : Char} (h : a.toNat = b.toNat) : a = b :=
  Char.eq_of_val_eq (UInt32.eq_of_val_eq (Fin.ext h))

theorem chListLt_trans : ∀ {a b c : List Char},
    chListLt a b = true → chListLt b c = true → chListLt a c = true := by
  intro a
  induction a with
  | nil =>
    intro b c h1 h2
    cases b with
    | nil => simp [chListLt] at h1
    | cons hb tb =>
      cases c with
      | nil => simp [chListLt] at h2
      | cons hc tc => rfl
  | cons ha ta ih =>
    intro b c h1 h2
    cases b with
    | nil => simp [chListLt] at h1
    | cons hb tb =>
      cases c with
      | nil => simp [chListLt] at h2
      | cons hc tc =>
        rw [chListLt] at h1 h2 ⊢
        by_cases hab : ha.toNat < hb.toNat
        · by_cases hbc : hb.toNat < hc.toNat
          · rw [if_pos (by omega)]
          · rw [if_neg hbc] at h2
            by_cases hcb : hc.toNat < hb.toNat
            · simp [hcb] at h2
            · rw [if_pos (by omega)]
        · rw [if_neg hab] at h1
          by_cases hba : hb.toNat < ha.toNat
          · simp [hba] at h1
          · rw [if_neg hba] at h1
            have hab' : ha.toNat = hb.toNat := by omega
            by_cases hbc : hb.toNat < hc.toNat
            · rw [if_pos (by omega)]
            · rw [if_neg hbc] at h2
              by_cases hcb : hc.toNat < hb.toNat
              · simp [hcb] at h2
              · rw [if_neg hcb] at h2
                rw [if_neg (by omega), if_neg (by omega)]
                exact ih h1 h2

theorem chListLt_total : ∀ {a b : List Char},
    a ≠ b → chListLt a b = true ∨ chListLt b a = true := by
  intro a
  induction a with
  | nil =>
    intro b hne
    cases b with
    | nil => exact absurd rfl hne
    | cons hb tb => exact Or.inl rfl
  | cons ha ta ih =>
    intro b hne
    cases b with
    | nil => exact Or.inr rfl
    | cons hb tb =>
      rw [chListLt, chListLt]
      by_cases hab : ha.toNat < hb.toNat
      · exact Or.inl (by rw [if_pos hab])
      · by_cases hba : hb.toNat < ha.toNat
        · exact Or.inr (by rw [if_pos hba])
        · have heq : ha = hb := char_toNat_inj (by omega)
          subst heq
          have htne : ta ≠ tb := by
            intro h
            exact hne (by rw [h])
          rcases ih htne with h | h
          · exact Or.inl (by rw [if_neg hab, if_neg hba]; exact h)
          · exact Or.inr (by rw [if_neg hab, if_neg hba]; exact h)

theorem strLt_trans {a b c : String} (h1 : strLt a b = true) (h2 : strLt b c = true) :
    strLt a c = true := chListLt_trans h1 h2

theorem strLt_total {a b : String} (hne : a ≠ b) : strLt a b = true ∨ strLt b a = true := by
  refine chListLt_total ?_
  intro h
  apply hne
  cases a with
  | mk da =>
    cases b with
    | mk db => exact congrArg String.mk h

/-- The strict (score, member) order of the time index, as a relation. -/
def zLtP (a b : String × Int) : Prop := zEntryLt a b = true

instance : IsTrans (String × Int) zLtP := by
  constructor
  intro a b c h1 h2
  unfold zLtP zEntryLt at h1 h2 ⊢
  simp only [Bool.or_eq_true, Bool.and_eq_true, decide_eq_true_eq] at h1 h2 ⊢
  rcases h1 with h1 | ⟨h1e, h1s⟩
  · rcases h2 with h2 | ⟨h2e, h2s⟩
    · exact Or.inl (by omega)
    · exact Or.inl (by omega)
  · rcases h2 with h2 | ⟨h2e, h2s⟩
    · exact Or.inl (by omega)
    · exact Or.inr ⟨by omega, strLt_trans h1s h2s⟩

theorem zEntryLt_total {a b : String × Int} (hne : a.1 ≠ b.1) :
    zEntryLt a b = true ∨ zEntryLt b a = true := by
  unfold zEntryLt
  simp only [Bool.or_eq_true, Bool.and_eq_true, decide_eq_true_eq]
  rcases lt_trichotomy a.2 b.2 with h | h | h
  · exact Or.inl (Or.inl h)
  · rcases strLt_total hne with hs | hs
    · exact Or.inl (Or.inr ⟨h, hs⟩)
    · exact Or.inr (Or.inr ⟨h.symm, hs⟩)
  · exact Or.inr (Or.inl h)

theorem zinsert_chain (m : String) (sc : Int) : ∀ l : List (String × Int),
    List.Chain' zLtP l → (∀ e ∈ l, e.1 ≠ m) → List.Chain' zLtP (zinsert l m sc) := by
  intro l
  induction l with
  | nil => intro _ _; exact List.chain'_singleton (m, sc)
  | cons e rest ih =>
    intro hch hne
    rw [zinsert]
    by_cases hlt : zEntryLt (m, sc) e = true
    · rw [if_pos hlt]
      exact hch.cons hlt
    · rw [if_neg hlt]
      have hparts := List.chain'_cons'.mp hch
      have hin := ih hparts.2 (fun x hx => hne x (List.mem_cons_of_mem e hx))
      rw [List.chain'_cons']
      refine ⟨?_, hin⟩
      intro y hy
      have hem : zLtP e (m, sc) := by
        have hne1 : e.1 ≠ (m, sc).1 := hne e (List.mem_cons_self e rest)
        rcases zEntryLt_total hne1 with h | h
        · exact h
        · exact absurd h hlt
      cases rest with
      | nil =>
        simp only [zinsert, List.head?_cons, Option.mem_def, Option.some.injEq] at hy
        subst hy
        exact hem
      | cons e' rest' =>
        rw [zinsert] at hy
        by_cases hlt2 : zEntryLt (m, sc) e' = true
        · rw [if_pos hlt2] at hy
          simp only [List.head?_cons, Option.mem_def, Option.some.injEq] at hy
          subst hy
          exact hem
        · rw [if_neg hlt2] at hy
          simp only [List.head?_cons, Option.mem_def, Option.some.injEq] at hy
          subst hy
          exact hparts.1 e' rfl

theorem zadd_chain (l : List (String × Int)) (m : String) (sc : Int)
    (hch : List.Chain' zLtP l) : List.Chain' zLtP (zadd l m sc) := by
  unfold zadd
  have hsub : List.Sublist (l.filter (fun e => !(e.1 == m))) l := List.filter_sublist l
  have hch' : List.Chain' zLtP (l.filter (fun e => !(e.1 == m))) := by
    rw [List.chain'_iff_pairwise] at hch ⊢
    exact hch.sublist hsub
  refine zinsert_chain m sc _ hch' ?_
  intro e he
  have := (List.mem_filter.mp he).2
  simpa using this

/-! ## FactStore well-formedness -/

/-- A time-index entry is backed by a stored event with matching id and
timestamp, both truthy (as every event built by `Event.__init__`
has). -/
def entryOKb (s : FactStore) (p : String × Int) : Bool :=
  match s.events.lookup p.1 with
  | some d => d.id == p.1 && d.ts == p.2 && !(d.id == "") && !(d.ts == 0)
  | none => false

/-- Executable sortedness of a sorted-set listing. -/
def zSortedB : List (String × Int) → Bool
  | [] => true
  | [_] => true
  | a :: b :: rest => zEntryLt a b && zSortedB (b :: rest)

theorem zSortedB_chain' : ∀ l : List (String × Int), zSortedB l = true ↔ List.Chain' zLtP l := by
  intro l
  induction l with
  | nil => simp [zSortedB]
  | cons a rest ih =>
    cases rest with
    | nil => simp [zSortedB]
    | cons b rest' =>
      rw [zSortedB, Bool.and_eq_true, ih, List.chain'_cons]
      exact Iff.rfl

/-- Store states reachable by appending constructor-built events: the
time index is (score, member)-sorted and consistent with the stored
events. -/
def StoreWF (s : FactStore) : Prop :=
  zSortedB s.timeIndex = true ∧ ∀ p ∈ s.timeIndex, entryOKb s p = true

instance : DecidableRel zLtP := fun a b =>
  inferInstanceAs (Decidable (zEntryLt a b = true))

instance (s : FactStore) : Decidable (StoreWF s) :=
  inferInstanceAs
    (Decidable (zSortedB s.timeIndex = true ∧ ∀ p ∈ s.timeIndex, entryOKb s p = true))

theorem fromDict_fields (d : EventDict) (genId : String) (genTs : Int)
    (hid : d.id ≠ "") (hts : d.ts ≠ 0) :
    Event.fromDict d genId genTs
      = { id := d.id, ts := d.ts, source := d.source, kind := d.kind,
          subject := d.subject, payload := d.payload, caused_by := d.caused_by,
          sig := d.sig } := by
  unfold Event.fromDict Event.create
  simp [hid, hts]

theorem mem_zinsert {l : List (String × Int)} {m : String} {sc : Int} {p : String × Int}
    (h : p ∈ zinsert l m sc) : p = (m, sc) ∨ p ∈ l := by
  induction l with
  | nil =>
    simp [zinsert] at h
    exact Or.inl h
  | cons e rest ih =>
    rw [zinsert] at h
    by_cases hlt : zEntryLt (m, sc) e = true
    · rw [if_pos hlt] at h
      rcases List.mem_cons.mp h with h | h
      · exact Or.inl h
      · exact Or.inr h
    · rw [if_neg hlt] at h
      rcases List.mem_cons.mp h with h | h
      · exact Or.inr (h ▸ List.mem_cons_self e rest)
      · rcases ih h with h | h
        · exact Or.inl h
        · exact Or.inr (List.mem_cons_of_mem e h)

theorem mem_zadd {l : List (String × Int)} {m : String} {sc : Int} {p : String × Int}
    (h : p ∈ zadd l m sc) : p = (m, sc) ∨ (p ∈ l ∧ p.1 ≠ m) := by
  unfold zadd at h
  rcases mem_zinsert h with h | h
  · exact Or.inl h
  · have hm := List.mem_filter.mp h
    refine Or.inr ⟨hm.1, ?_⟩
    have := hm.2
    simpa using this

theorem lookup_append_left {α β : Type} [BEq α] {l1 l2 : List (α × β)} {k : α} {v : β}
    (h : List.lookup k l1 = some v) : List.lookup k (l1 ++ l2) = some v := by
  induction l1 with
  | nil => simp [List.lookup] at h
  | cons hd tl ih =>
    obtain ⟨a, b⟩ := hd
    rw [List.cons_append, List.lookup]
    rw [List.lookup] at h
    cases hbeq : k == a with
    | true => rw [hbeq] at h; exact h
    | false => rw [hbeq] at h; exact ih h

theorem lookup_append_right {α β : Type} [BEq α] {l1 : List (α × β)} {k : α}
    (h : List.lookup k l1 = none) (l2 : List (α × β)) :
    List.lookup k (l1 ++ l2) = List.lookup k l2 := by
  induction l1 with
  | nil => simp
  | cons hd tl ih =>
    obtain ⟨a, b⟩ := hd
    rw [List.cons_append, List.lookup]
    rw [List.lookup] at h
    cases hbeq : k == a with
    | true => rw [hbeq] at h; exact absurd h (by simp)
    | false => rw [hbeq] at h; exact ih h

/-- Appending a constructor-built (truthy id and timestamp) event
preserves store well-formedness. -/
theorem append_StoreWF {s : FactStore} (e : Event) (hwf : StoreWF s)
    (hid : e.id ≠ "") (hts : e.ts ≠ 0) : StoreWF (s.append e).2 := by
  unfold FactStore.append
  by_cases hv : e.verifyIntegrity = true
  · rw [if_neg (by simp [hv])]
    by_cases hex : (List.lookup e.id s.events).isSome = true
    · rw [if_pos hex]
      exact hwf
    · rw [if_neg hex]
      have hnone : List.lookup e.id s.events = none := by
        cases h : List.lookup e.id s.events with
        | none => rfl
        | some d => rw [h] at hex; simp at hex
      constructor
      · exact (zSortedB_chain' _).mpr
          (zadd_chain s.timeIndex e.id e.ts ((zSortedB_chain' _).mp hwf.1))
      · intro p hp
        rcases mem_zadd hp with rfl | ⟨hpold, hpne⟩
        · unfold entryOKb
          have : List.lookup (e.id, e.ts).1 (s.events ++ [(e.id, e.toDict)])
              = some e.toDict := by
            rw [lookup_append_right hnone]
            simp [List.lookup]
          simp only [this]
          simp [Event.toDict, hid, hts]
        · have hok := hwf.2 p hpold
          unfold entryOKb at hok ⊢
          cases hold : List.lookup p.1 s.events with
          | none => rw [hold] at hok; simp at hok
          | some d =>
            rw [hold] at hok
            simp only [lookup_append_left hold]
            exact hok
  · rw [if_pos (by simp [Bool.not_eq_true] at hv; simp [hv])]
    exact hwf

theorem filterMap_getById (s : FactStore) (genId : String) (genTs : Int) (hwf : StoreWF s) :
    ∀ T : List (String × Int), (∀ p ∈ T, p ∈ s.timeIndex) →
      ((T.map Prod.fst).filterMap (fun eid => s.getById eid genId genTs)).map
        (fun ev => (ev.id, ev.ts)) = T := by
  intro T
  induction T with
  | nil => intro _; simp
  | cons p rest ih =>
    intro hmem
    have hok := hwf.2 p (hmem p (List.mem_cons_self p rest))
    unfold entryOKb at hok
    cases hold : List.lookup p.1 s.events with
    | none => rw [hold] at hok; simp at hok
    | some d =>
      rw [hold] at hok
      simp only [Bool.and_eq_true, beq_iff_eq, Bool.not_eq_true', beq_eq_false_iff_ne,
        ne_eq] at hok
      obtain ⟨⟨⟨hdid, hdts⟩, hid'⟩, hts'⟩ := hok
      have hby : s.getById p.1 genId genTs = some (Event.fromDict d genId genTs) := by
        unfold FactStore.getById
        rw [hold]
        rfl
      simp only [List.map_cons, List.filterMap_cons, hby]
      rw [fromDict_fields d genId genTs hid' hts']
      simp only [List.map_cons]
      rw [ih (fun q hq => hmem q (List.mem_cons_of_mem p hq))]
      simp [hdid, hdts]

theorem zrevrangeTo_take (l : List (String × Int)) (k : Int) (hk : 1 ≤ k) :
    zrevrangeTo l (k - 1) = (l.reverse.take k.toNat).map Prod.fst := by
  unfold zrevrangeTo
  have h1 : ¬ (k - 1 < 0) := by omega
  simp only [h1, if_false, if_neg]
  have h2 : (k - 1).toNat + 1 = k.toNat := by omega
  rw [h2]

theorem getLatest_entries (s : FactStore) (k : Int) (genId : String) (genTs : Int)
    (hwf : StoreWF s) (hk : 1 ≤ k) :
    (s.getLatest k genId genTs).map (fun ev => (ev.id, ev.ts))
      = s.timeIndex.reverse.take k.toNat := by
  unfold FactStore.getLatest
  rw [zrevrangeTo_take s.timeIndex k hk]
  exact filterMap_getById s genId genTs hwf _
    (fun p hp => List.mem_reverse.mp (List.mem_of_mem_take hp))

/-! ## Redis-hash and dict update lemmas -/

theorem lookup_none_of_not_mem_keys {α β : Type} [BEq α] [LawfulBEq α]
    {l : List (α × β)} {k : α} (h : k ∉ l.map Prod.fst) : List.lookup k l = none := by
  induction l with
  | nil => rfl
  | cons hd tl ih =>
    obtain ⟨a, b⟩ := hd
    rw [List.lookup]
    cases hbeq : k == a with
    | true =>
      have heq : k = a := beq_iff_eq.mp hbeq
      exact absurd (by simp [heq]) h
    | false =>
      exact ih (fun hm => h (List.mem_cons_of_mem a hm))

theorem lookup_hsetField_self (h : List (String × JVal)) (k : String) (v : JVal) :
    List.lookup k (hsetField h k v) = some v := by
  induction h with
  | nil => simp [hsetField, List.lookup]
  | cons hd tl ih =>
    obtain ⟨k', v'⟩ := hd
    rw [hsetField]
    by_cases hk : k' = k
    · rw [if_pos hk, List.lookup]
      simp [hk]
    · rw [if_neg hk, List.lookup]
      have : (k == k') = false := by
        simp only [beq_eq_false_iff_ne, ne_eq]
        exact fun he => hk he.symm
      rw [this]
      exact ih

theorem lookup_hsetField_ne (h : List (String × JVal)) (k k' : String) (v : JVal)
    (hne : k' ≠ k) : List.lookup k' (hsetField h k v) = List.lookup k' h := by
  induction h with
  | nil =>
    simp only [hsetField, List.lookup]
    have : (k' == k) = false := by simpa using hne
    rw [this]
  | cons hd tl ih =>
    obtain ⟨k0, v0⟩ := hd
    rw [hsetField]
    by_cases hk : k0 = k
    · rw [if_pos hk, List.lookup, List.lookup]
      subst hk
      have : (k' == k0) = false := by simpa using hne
      rw [this]
    · rw [if_neg hk, List.lookup, List.lookup]
      cases hbeq : k' == k0 with
      | true => rfl
      | false => exact ih

theorem lookup_hsetMap (h m : List (String × JVal)) (hnd : (m.map Prod.fst).Nodup) (k : String) :
    List.lookup k (hsetMap h m)
      = match List.lookup k m with
        | some v => some v
        | none => List.lookup k h := by
  induction m generalizing h with
  | nil => rfl
  | cons hd rest ih =>
    obtain ⟨k0, v0⟩ := hd
    have hnd' : (rest.map Prod.fst).Nodup := (List.nodup_cons.mp hnd).2
    have hk0 : k0 ∉ rest.map Prod.fst := (List.nodup_cons.mp hnd).1
    show List.lookup k (hsetMap (hsetField h k0 v0) rest) = _
    rw [ih (hsetField h k0 v0) hnd']
    rw [List.lookup]
    cases hbeq : k == k0 with
    | true =>
      have hkeq : k = k0 := beq_iff_eq.mp hbeq
      subst hkeq
      rw [lookup_none_of_not_mem_keys hk0]
      rw [lookup_hsetField_self]
    | false =>
      have hkne : k ≠ k0 := by
        intro he
        rw [he] at hbeq
        simp at hbeq
      cases hrest : List.lookup k rest with
      | some v => rfl
      | none => rw [lookup_hsetField_ne h k0 k v0 hkne]

theorem lookup_hsetAt_self (hs : List (String × List (String × JVal))) (key : String)
    (m : List (String × JVal)) :
    List.lookup key (hsetAt hs key m) = some (hsetMap ((List.lookup key hs).getD []) m) := by
  induction hs with
  | nil =>
    simp [hsetAt, List.lookup]
  | cons hd tl ih =>
    obtain ⟨k, h⟩ := hd
    rw [hsetAt]
    by_cases hk : k = key
    · rw [if_pos hk, List.lookup]
      subst hk
      simp [List.lookup]
    · rw [if_neg hk, List.lookup, List.lookup]
      have : (key == k) = false := by
        simp only [beq_eq_false_iff_ne, ne_eq]
        exact fun he => hk he.symm
      rw [this]
      exact ih

theorem lookup_dictSet_self (d : List (JVal × JVal)) (k v : JVal) :
    List.lookup k (dictSet d k v) = some v := by
  induction d with
  | nil => simp [dictSet, List.lookup]
  | cons hd tl ih =>
    obtain ⟨k', v'⟩ := hd
    rw [dictSet]
    by_cases hk : k' = k
    · rw [if_pos hk, List.lookup]
      simp [hk]
    · rw [if_neg hk, List.lookup]
      have : (k == k') = false := by
        simp only [beq_eq_false_iff_ne, ne_eq]
        exact fun he => hk he.symm
      rw [this]
      exact ih

theorem dictSet_ne_nil (d : List (JVal × JVal)) (k v : JVal) : dictSet d k v ≠ [] := by
  cases d with
  | nil => simp [dictSet]
  | cons hd tl =>
    obtain ⟨k', v'⟩ := hd
    rw [dictSet]
    by_cases hk : k' = k
    · rw [if_pos hk]; simp
    · rw [if_neg hk]; simp

theorem lookup_setProjectTask_self (m : List (JVal × List (JVal × JVal))) (pid tid status : JVal) :
    List.lookup pid (setProjectTask m pid tid status)
      = some (dictSet ((List.lookup pid m).getD []) tid status) := by
  induction m with
  | nil => simp [setProjectTask, List.lookup]
  | cons hd tl ih =>
    obtain ⟨k, d⟩ := hd
    rw [setProjectTask]
    by_cases hk : k = pid
    · rw [if_pos hk, List.lookup]
      subst hk
      simp [List.lookup]
    · rw [if_neg hk, List.lookup, List.lookup]
      have : (pid == k) = false := by
        simp only [beq_eq_false_iff_ne, ne_eq]
        exact fun he => hk he.symm
      rw [this]
      exact ih

/-! ## Insight publication loop lemmas -/

theorem publishCandidates_insights_mono (pid : JVal) (cb ag : String)
    (gen : Nat → String × Int × String) :
    ∀ (msgs : List String) (n : Nat) (st : InsightAgent),
      st.insights ⊆ (InsightAgent.publishCandidates pid cb ag gen msgs n st).1.insights := by
  intro msgs
  induction msgs with
  | nil => intro n st x hx; simpa [InsightAgent.publishCandidates] using hx
  | cons msg rest ih =>
    intro n st x hx
    rw [InsightAgent.publishCandidates]
    by_cases hk : (jvalFmt pid ++ ":" ++ msg) ∈ st.insights
    · rw [if_pos hk]
      exact ih n st hx
    · rw [if_neg hk]
      exact ih (n + 1) _ (by simp [hx])

theorem publishCandidates_keys_after (pid : JVal) (cb ag : String)
    (gen : Nat → String × Int × String) :
    ∀ (msgs : List String) (n : Nat) (st : InsightAgent), ∀ m ∈ msgs,
      (jvalFmt pid ++ ":" ++ m) ∈ (InsightAgent.publishCandidates pid cb ag gen msgs n st).1.insights := by
  intro msgs
  induction msgs with
  | nil => intro n st m hm; simp at hm
  | cons msg rest ih =>
    intro n st m hm
    rw [InsightAgent.publishCandidates]
    rcases List.mem_cons.mp hm with rfl | hm
    · by_cases hk : (jvalFmt pid ++ ":" ++ m) ∈ st.insights
      · rw [if_pos hk]
        exact publishCandidates_insights_mono pid cb ag gen rest n st hk
      · rw [if_neg hk]
        exact publishCandidates_insights_mono pid cb ag gen rest (n + 1) _ (by simp)
    · by_cases hk : (jvalFmt pid ++ ":" ++ msg) ∈ st.insights
      · rw [if_pos hk]
        exact ih n st m hm
      · rw [if_neg hk]
        exact ih (n + 1) _ m hm

theorem publishCandidates_all_seen (pid : JVal) (cb ag : String)
    (gen : Nat → String × Int × String) :
    ∀ (msgs : List String) (n : Nat) (st : InsightAgent),
      (∀ m ∈ msgs, (jvalFmt pid ++ ":" ++ m) ∈ st.insights) →
      InsightAgent.publishCandidates pid cb ag gen msgs n st = (st, []) := by
  intro msgs
  induction msgs with
  | nil => intro n st _; rfl
  | cons msg rest ih =>
    intro n st hall
    rw [InsightAgent.publishCandidates]
    rw [if_pos (hall msg (List.mem_cons_self msg rest))]
    exact ih n st (fun m hm => hall m (List.mem_cons_of_mem msg hm))

theorem publishCandidates_published (pid : JVal) (cb ag : String)
    (gen : Nat → String × Int × String) :
    ∀ (msgs : List String) (n : Nat) (st : InsightAgent) (ev : Event),
      ev ∈ (InsightAgent.publishCandidates pid cb ag gen msgs n st).2 →
      ∃ m, m ∈ msgs ∧ (jvalFmt pid ++ ":" ++ m) ∉ st.insights
        ∧ ∃ j, ev = EventFactory.createInsightRaised pid m "info" ag (some cb) []
            (gen j).1 (gen j).2.1 (gen j).2.2 := by
  intro msgs
  induction msgs with
  | nil => intro n st ev hev; simp [InsightAgent.publishCandidates] at hev
  | cons msg rest ih =>
    intro n st ev hev
    rw [InsightAgent.publishCandidates] at hev
    by_cases hk : (jvalFmt pid ++ ":" ++ msg) ∈ st.insights
    · rw [if_pos hk] at hev
      obtain ⟨m, hm, hnk, j, hj⟩ := ih n st ev hev
      exact ⟨m, List.mem_cons_of_mem msg hm, hnk, j, hj⟩
    · rw [if_neg hk] at hev
      rcases List.mem_cons.mp hev with rfl | hev
      · exact ⟨msg, List.mem_cons_self msg rest, hk, n, rfl⟩
      · obtain ⟨m, hm, hnk, j, hj⟩ := ih (n + 1)
          { st with insights := st.insights ++ [jvalFmt pid ++ ":" ++ msg] } ev hev
        refine ⟨m, List.mem_cons_of_mem msg hm, ?_, j, hj⟩
        intro hmem
        exact hnk (by simp [hmem])

/-! ## Concrete fixtures used by witnesses and counterexamples -/

/-- A constructor-built event. -/
def evK : Event := Event.create "src-1" "TaskCreated" [("taskId", JVal.str "task-1")]
  [("title", JVal.str "T")] (some "id-1") "gen-uuid" (some 5) 9 none

/-- `evK` with its kind mutated after construction (signature kept). -/
def evKmut : Event := { evK with kind := "TaskUpdated" }

/-- An event whose signature was corrupted after construction. -/
def evBad : Event := { evK with sig := "doctored" }

/-- An event value with a falsy (empty) id, as Python code can produce
by field assignment; `Event.__init__`'s `or`-defaulting then replaces
the id on reconstruction. -/
def evEmptyId : Event :=
  { id := "", ts := 5, source := "s", kind := "K", subject := [], payload := [],
    caused_by := none, sig := "x" }

/-- A store holding the single fact `evK`. -/
def store1 : FactStore := (FactStore.empty.append evK).2

/-- A fact with `evK`'s id but different payload; its kept signature no
longer matches its content. -/
def evKDup : Event := { evK with payload := [("title", JVal.str "OTHER")] }

/-! ## C9 -/

/-- C9: for every constructed Fact, mutating fields so that the
canonical key-sorted serialization changes makes `verify_integrity`
return false, because the stored signature no longer equals the digest
recomputed from the current field values.  `e` is the constructed fact
(its signature matches its content), `e'` the mutated one (same stored
signature, changed serialized content). -/
theorem C9_mutation_invalidates_signature (e e' : Event)
    (hconstructed : e.verifyIntegrity = true)
    (hsig : e'.sig = e.sig)
    (hchanged : e'.generateSignature ≠ e.generateSignature) :
    e'.verifyIntegrity = false := by
  have h1 : e.sig = e.generateSignature := by
    have := hconstructed
    unfold Event.verifyIntegrity at this
    exact beq_iff_eq.mp this
  unfold Event.verifyIntegrity
  rw [hsig, h1]
  exact beq_eq_false_iff_ne.mpr (fun h => hchanged h.symm)

/-- C9 witness: a concrete constructed fact whose kind is mutated. -/
theorem C9_witness :
    evK.verifyIntegrity = true ∧ evKmut.sig = evK.sig
    ∧ evKmut.generateSignature ≠ evK.generateSignature
    ∧ evKmut.verifyIntegrity = false :=
  ⟨by decide, rfl, by decide,
    C9_mutation_invalidates_signature evK evKmut (by decide) rfl (by decide)⟩

/-! ## C10 -/

/-- C10 counterexample: the round trip does not preserve every event's
id.  For an event whose id is the empty string (falsy), `from_dict`
passes the stored id to `Event.__init__`, whose `or`-defaulting replaces
it with a fresh `uuid.uuid4()` (modelled by the generator argument;
uuid4 output is never empty).  So `from_dict(e.to_dict())` changes the
id field, contradicting the claim for this event. -/
theorem C10_counterexample :
    (Event.fromDict evEmptyId.toDict "3f2b8a6e-9c41-4d27-8e5a-000000000000" 9).id
      ≠ evEmptyId.id := by decide

/-- C10 amended: for every event whose id and timestamp are truthy
(non-empty id, non-zero timestamp — true of every event
`Event.__init__` returns), `from_dict (to_dict e)` equals `e` on all
eight fields, keeping the serialized signature rather than recomputing
it, so `verify_integrity` is preserved. -/
theorem C10_roundtrip (e : Event) (genId : String) (genTs : Int)
    (hid : e.id ≠ "") (hts : e.ts ≠ 0) :
    Event.fromDict e.toDict genId genTs = e
    ∧ (Event.fromDict e.toDict genId genTs).verifyIntegrity = e.verifyIntegrity := by
  have h : Event.fromDict e.toDict genId genTs = e := by
    rw [fromDict_fields e.toDict genId genTs hid hts]
    cases e
    rfl
  exact ⟨h, by rw [h]⟩

/-- C10 witness: the round trip at a concrete constructed event. -/
theorem C10_witness :
    Event.fromDict evK.toDict "other-uuid" 77 = evK
    ∧ (Event.fromDict evK.toDict "other-uuid" 77).verifyIntegrity = evK.verifyIntegrity :=
  C10_roundtrip evK "other-uuid" 77 (by decide) (by decide)

/-! ## C1 -/

/-- C1: `EventBroker.publish` is write-ahead.  If the fact fails
signature verification, publish returns failure, the store is unchanged
and no channel message is emitted (so no subscriber callback can fire);
and whenever any fan-out message is emitted, the append had succeeded
and the published store state is the post-append state. -/
theorem C1_publish_write_ahead (s : FactStore) (e : Event) :
    (e.verifyIntegrity = false → EventBroker.publish s e = (false, s, []))
    ∧ ((EventBroker.publish s e).2.2 ≠ [] →
        (s.append e).1 = true ∧ (EventBroker.publish s e).2.1 = (s.append e).2) := by
  constructor
  · intro hv
    unfold EventBroker.publish FactStore.append
    rw [hv]
    simp
  · intro hne
    unfold EventBroker.publish at hne ⊢
    by_cases hst : (s.append e).1 = true
    · simp [hst]
    · simp only [Bool.not_eq_true] at hst
      simp [hst] at hne

/-- C1 witness: a corrupted-signature fact is refused with no fan-out;
a valid fact's fan-out implies its append succeeded. -/
theorem C1_witness :
    EventBroker.publish FactStore.empty evBad = (false, FactStore.empty, [])
    ∧ ((FactStore.empty.append evK).1 = true
       ∧ (EventBroker.publish FactStore.empty evK).2.1 = (FactStore.empty.append evK).2) :=
  ⟨(C1_publish_write_ahead FactStore.empty evBad).1 (by decide),
   (C1_publish_write_ahead FactStore.empty evK).2 (by decide)⟩

/-! ## C3 -/

/-- C3 counterexample: the claim says a second append of *any* fact
with an already-stored id returns success.  But `append` checks
integrity before the duplicate-id check, so a fact with the stored id
and a signature that no longer matches its content returns failure
(the store is still unchanged). -/
theorem C3_counterexample :
    (List.lookup evKDup.id store1.events).isSome = true
    ∧ (store1.append evKDup).1 = false
    ∧ (store1.append evKDup).2 = store1 := by decide

/-- C3 amended: `append` is idempotent on the id for facts that pass
integrity verification: if the store already holds a fact with the given
id, appending any verifying fact with that id returns success and leaves
the whole store — events and all three indexes — unchanged (and a
non-verifying duplicate returns failure, also leaving the store
unchanged). -/
theorem C3_append_idempotent (s : FactStore) (e : Event)
    (hex : (List.lookup e.id s.events).isSome = true)
    (hv : e.verifyIntegrity = true) :
    s.append e = (true, s) := by
  unfold FactStore.append
  rw [hv]
  simp [hex]

/-- C3 witness: re-appending the stored fact itself. -/
theorem C3_witness : store1.append evK = (true, store1) :=
  C3_append_idempotent store1 evK (by decide) (by decide)

/-! ## C2 -/

/-- A ProjectCreated fact for project `p1` named Alpha. -/
def evPC1 : Event := Event.create "mgr" "ProjectCreated" [("projectId", JVal.str "p1")]
  [("name", JVal.str "Alpha"), ("description", JVal.str "d1"), ("createdAt", JVal.str "T1")]
  (some "e-pc1") "g" (some 1) 9 none

/-- A second ProjectCreated fact for the same project id, named Beta. -/
def evPC2 : Event := Event.create "mgr" "ProjectCreated" [("projectId", JVal.str "p1")]
  [("name", JVal.str "Beta"), ("description", JVal.str "d2"), ("createdAt", JVal.str "T2")]
  (some "e-pc2") "g" (some 2) 9 none

/-- The view store after materializing `evPC1`. -/
def view1 : ViewStore := ViewMaterializer.handleProjectCreated ⟨[], [], [], [], []⟩ evPC1 "N1"

/-- C2 counterexample: project `p1` already has a projection (name
Alpha); handling a second ProjectCreated for the same id replaces the
stored hash (name becomes Beta) instead of leaving it unchanged — the
handler writes unconditionally, with no existence check. -/
theorem C2_counterexample :
    List.lookup "p1" (ViewMaterializer.handleProjectCreated view1 evPC2 "N2").projects
      ≠ List.lookup "p1" view1.projects := by decide

/-- C2 amended: for every ProjectCreated (resp. TaskCreated) fact with a
truthy subject id and a storable mapping, the handler unconditionally
`HSET`s the projection hash built from the fact: every field of the
mapping overwrites the stored field, and only fields outside the mapping
keep their previous value.  An existing projection for the same id is
therefore overwritten, not preserved. -/
theorem C2_creation_overwrites :
    (∀ (vs : ViewStore) (e : Event) (now : String) (pid : JVal),
      e.subject.lookup "projectId" = some pid → pid.truthy = true →
      storableMap (projectDataOf e pid now) = true →
      List.lookup (jvalFmt pid) (ViewMaterializer.handleProjectCreated vs e now).projects
        = some (hsetMap ((List.lookup (jvalFmt pid) vs.projects).getD []) (projectDataOf e pid now))
      ∧ ∀ fieldName : String,
          List.lookup fieldName
            (hsetMap ((List.lookup (jvalFmt pid) vs.projects).getD []) (projectDataOf e pid now))
          = match List.lookup fieldName (projectDataOf e pid now) with
            | some v => some v
            | none => List.lookup fieldName ((List.lookup (jvalFmt pid) vs.projects).getD []))
    ∧ (∀ (vs : ViewStore) (e : Event) (now : String) (tid pid : JVal),
      e.subject.lookup "taskId" = some tid → e.subject.lookup "projectId" = some pid →
      tid.truthy = true → pid.truthy = true →
      storableMap (taskDataOf e tid pid now) = true →
      List.lookup (jvalFmt tid) (ViewMaterializer.handleTaskCreated vs e now).tasks
        = some (hsetMap ((List.lookup (jvalFmt tid) vs.tasks).getD []) (taskDataOf e tid pid now))
      ∧ ∀ fieldName : String,
          List.lookup fieldName
            (hsetMap ((List.lookup (jvalFmt tid) vs.tasks).getD []) (taskDataOf e tid pid now))
          = match List.lookup fieldName (taskDataOf e tid pid now) with
            | some v => some v
            | none => List.lookup fieldName ((List.lookup (jvalFmt tid) vs.tasks).getD [])) := by
  constructor
  · intro vs e now pid hpid htr hstore
    constructor
    · unfold ViewMaterializer.handleProjectCreated
      rw [hpid]
      simp only [htr, Bool.not_true, Bool.false_eq_true, if_false, hstore]
      exact lookup_hsetAt_self vs.projects (jvalFmt pid) (projectDataOf e pid now)
    · intro fieldName
      refine lookup_hsetMap _ _ ?_ fieldName
      show (["projectId", "name", "description", "status", "createdAt", "updatedAt"]
        : List String).Nodup
      decide
  · intro vs e now tid pid htid hpid httr hptr hstore
    constructor
    · unfold ViewMaterializer.handleTaskCreated
      rw [htid, hpid]
      simp only [httr, hptr, Bool.and_self, Bool.not_true, Bool.false_eq_true, if_false, hstore]
      exact lookup_hsetAt_self vs.tasks (jvalFmt tid) (taskDataOf e tid pid now)
    · intro fieldName
      refine lookup_hsetMap _ _ ?_ fieldName
      show (["taskId", "projectId", "title", "description", "status", "assignee",
        "createdAt", "updatedAt"] : List String).Nodup
      decide

/-- C2 witness: handling the second creation fact overwrites the name
field of the existing projection with the new fact's name. -/
theorem C2_witness :
    List.lookup "p1" (ViewMaterializer.handleProjectCreated view1 evPC2 "N2").projects
      = some (hsetMap ((List.lookup "p1" view1.projects).getD [])
          (projectDataOf evPC2 (JVal.str "p1") "N2"))
    ∧ ∀ fieldName : String,
        List.lookup fieldName
          (hsetMap ((List.lookup "p1" view1.projects).getD [])
            (projectDataOf evPC2 (JVal.str "p1") "N2"))
        = match List.lookup fieldName (projectDataOf evPC2 (JVal.str "p1") "N2") with
          | some v => some v
          | none => List.lookup fieldName ((List.lookup "p1" view1.projects).getD []) :=
  (C2_creation_overwrites.1 view1 evPC2 "N2" (JVal.str "p1") (by decide) (by decide) (by decide))

/-! ## C5 -/

/-- C5: handling a TaskStatusChanged (resp. TaskCreated) event with
truthy subject and payload fields updates the tracked status map and
publishes exactly one ProjectProgressCalculated fact whose progress is
exactly completed/total·100 (floats modelled as exact fractions; the
3-of-4 case gives exactly 75), whose payload carries the completed and
total counts, and whose causedBy is the triggering fact's id.  The
updated task map is never empty, so totalCount > 0 on these paths; when
a project's tracked map is empty (totalCount = 0),
`_calculate_project_progress` publishes nothing. -/
theorem C5_progress_calculation :
    (∀ (st : ProgressAgent) (e : Event) (agentId genId : String) (genTs : Int) (now : String)
       (pid tid ns : JVal) (tasks : List (JVal × JVal)),
      e.subject.lookup "projectId" = some pid →
      e.subject.lookup "taskId" = some tid →
      e.payload.lookup "newStatus" = some ns →
      pid.truthy = true → tid.truthy = true → ns.truthy = true →
      List.lookup pid (setProjectTask st.projectTasks pid tid ns) = some tasks →
      0 < tasks.length
      ∧ st.handleTaskStatusChanged e agentId genId genTs now
        = (⟨setProjectTask st.projectTasks pid tid ns⟩,
           [EventFactory.createProjectProgressCalculated pid
             ⟨((tasks.filter (fun p => p.2 = JVal.str "completed")).length : Int) * 100,
              (tasks.length : Int)⟩
             (tasks.filter (fun p => p.2 = JVal.str "completed")).length tasks.length
             agentId (some e.id) genId genTs now])
      ∧ PyFloat.toRat ⟨((tasks.filter (fun p => p.2 = JVal.str "completed")).length : Int) * 100,
            (tasks.length : Int)⟩
          = ((tasks.filter (fun p => p.2 = JVal.str "completed")).length : ℚ)
              / (tasks.length : ℚ) * 100)
    ∧ (∀ (st : ProgressAgent) (e : Event) (agentId genId : String) (genTs : Int) (now : String)
       (pid tid : JVal) (tasks : List (JVal × JVal)),
      e.subject.lookup "projectId" = some pid →
      e.subject.lookup "taskId" = some tid →
      pid.truthy = true → tid.truthy = true →
      List.lookup pid (setProjectTask st.projectTasks pid tid
        ((e.payload.lookup "status").getD (.str "pending"))) = some tasks →
      0 < tasks.length
      ∧ st.handleTaskCreated e agentId genId genTs now
        = (⟨setProjectTask st.projectTasks pid tid
              ((e.payload.lookup "status").getD (.str "pending"))⟩,
           [EventFactory.createProjectProgressCalculated pid
             ⟨((tasks.filter (fun p => p.2 = JVal.str "completed")).length : Int) * 100,
              (tasks.length : Int)⟩
             (tasks.filter (fun p => p.2 = JVal.str "completed")).length tasks.length
             agentId (some e.id) genId genTs now]))
    ∧ (∀ (st : ProgressAgent) (pid : JVal) (cb agentId genId : String) (genTs : Int) (now : String),
      List.lookup pid st.projectTasks = some [] →
      st.calculateProjectProgress pid cb agentId genId genTs now = []) := by
  refine ⟨?_, ?_, ?_⟩
  · intro st e agentId genId genTs now pid tid ns tasks hpid htid hns hptr httr hntr hlook
    have htne : tasks ≠ [] := by
      rw [lookup_setProjectTask_self st.projectTasks pid tid ns] at hlook
      intro hnil
      rw [hnil] at hlook
      exact dictSet_ne_nil _ tid ns (Option.some.inj hlook)
    have hlen : 0 < tasks.length := List.length_pos.mpr htne
    refine ⟨hlen, ?_, ?_⟩
    · unfold ProgressAgent.handleTaskStatusChanged
      rw [hpid, htid, hns]
      simp only [hptr, httr, hntr, Bool.and_self, Bool.not_true, Bool.false_eq_true, if_false]
      unfold ProgressAgent.calculateProjectProgress
      simp only [hlook]
      rw [if_neg (by omega)]
    · unfold PyFloat.toRat
      push_cast
      ring
  · intro st e agentId genId genTs now pid tid tasks hpid htid hptr httr hlook
    have htne : tasks ≠ [] := by
      rw [lookup_setProjectTask_self st.projectTasks pid tid _] at hlook
      intro hnil
      rw [hnil] at hlook
      exact dictSet_ne_nil _ tid _ (Option.some.inj hlook)
    have hlen : 0 < tasks.length := List.length_pos.mpr htne
    refine ⟨hlen, ?_⟩
    unfold ProgressAgent.handleTaskCreated
    rw [hpid, htid]
    simp only [hptr, httr, Bool.and_self, Bool.not_true, Bool.false_eq_true, if_false]
    unfold ProgressAgent.calculateProjectProgress
    simp only [hlook]
    rw [if_neg (by omega)]
  · intro st pid cb agentId genId genTs now hlook
    unfold ProgressAgent.calculateProjectProgress
    rw [hlook]
    simp

/-- The C5 witness state: one project with four tracked tasks, one of
which will be completed by the witness event. -/
def pa5 : ProgressAgent := ⟨[(JVal.str "proj-1",
  [(JVal.str "task-1", JVal.str "pending"), (JVal.str "task-2", JVal.str "completed"),
   (JVal.str "task-3", JVal.str "completed"), (JVal.str "task-4", JVal.str "pending")])]⟩

/-- The witness TaskStatusChanged fact completing task-1. -/
def evTSC : Event := Event.create "cli" "TaskStatusChanged"
  [("taskId", JVal.str "task-1"), ("projectId", JVal.str "proj-1")]
  [("oldStatus", JVal.str "pending"), ("newStatus", JVal.str "completed"),
   ("updatedAt", JVal.str "T0")]
  (some "ev-tsc") "g" (some 100) 9 none

/-- The four statuses tracked for proj-1 after handling `evTSC`. -/
def tasks5 : List (JVal × JVal) :=
  [(JVal.str "task-1", JVal.str "completed"), (JVal.str "task-2", JVal.str "completed"),
   (JVal.str "task-3", JVal.str "completed"), (JVal.str "task-4", JVal.str "pending")]

/-- C5 witness: 3 completed of 4 tasks gives exactly 75. -/
theorem C5_witness :
    (0 < tasks5.length
    ∧ pa5.handleTaskStatusChanged evTSC "agent" "gid" 7 "now"
      = (⟨setProjectTask pa5.projectTasks (JVal.str "proj-1") (JVal.str "task-1")
            (JVal.str "completed")⟩,
         [EventFactory.createProjectProgressCalculated (JVal.str "proj-1")
           ⟨((tasks5.filter (fun p => p.2 = JVal.str "completed")).length : Int) * 100,
            (tasks5.length : Int)⟩
           (tasks5.filter (fun p => p.2 = JVal.str "completed")).length tasks5.length
           "agent" (some evTSC.id) "gid" 7 "now"])
    ∧ PyFloat.toRat ⟨((tasks5.filter (fun p => p.2 = JVal.str "completed")).length : Int) * 100,
          (tasks5.length : Int)⟩
        = ((tasks5.filter (fun p => p.2 = JVal.str "completed")).length : ℚ)
            / (tasks5.length : ℚ) * 100)
    ∧ PyFloat.toRat ⟨300, 4⟩ = 75 := by
  constructor
  · exact C5_progress_calculation.1 pa5 evTSC "agent" "gid" 7 "now"
      (JVal.str "proj-1") (JVal.str "task-1") (JVal.str "completed") tasks5
      (by decide) (by decide) (by decide) (by decide) (by decide) (by decide) (by decide)
  · unfold PyFloat.toRat
    norm_num

/-! ## C7 -/

theorem createInsightRaised_message (pid : JVal) (m sev ag : String) (cb : Option String)
    (g1 : String) (g2 : Int) (g3 : String) :
    List.lookup "message" (EventFactory.createInsightRaised pid m sev ag cb [] g1 g2 g3).payload
      = some (JVal.str m) := rfl

theorem publishCandidates_progress_const (pid : JVal) (cb ag : String)
    (gen : Nat → String × Int × String) :
    ∀ (msgs : List String) (n : Nat) (st : InsightAgent),
      (InsightAgent.publishCandidates pid cb ag gen msgs n st).1.projectProgress
        = st.projectProgress := by
  intro msgs
  induction msgs with
  | nil => intro n st; rfl
  | cons msg rest ih =>
    intro n st
    rw [InsightAgent.publishCandidates]
    by_cases hk : (jvalFmt pid ++ ":" ++ msg) ∈ st.insights
    · rw [if_pos hk]
      exact ih n st
    · rw [if_neg hk]
      exact ih (n + 1) _

/-- C7: a threshold insight whose dedup key (projectId plus message
text) is already in the agent's dedup set is never published by
`_handle_progress_event`; and replaying the same
ProjectProgressCalculated event (same project, same progress value) a
second time publishes nothing at all. -/
theorem C7_insight_dedup :
    (∀ (st : InsightAgent) (e : Event) (agentId : String) (gen : Nat → String × Int × String)
       (pid : JVal) (msg : String),
      e.subject.lookup "projectId" = some pid →
      (jvalFmt pid ++ ":" ++ msg) ∈ st.insights →
      ∀ ev ∈ (st.handleProgressEvent e agentId gen).2,
        List.lookup "message" ev.payload ≠ some (JVal.str msg))
    ∧ (∀ (st : InsightAgent) (e : Event) (agentId : String)
        (gen gen' : Nat → String × Int × String),
      ((st.handleProgressEvent e agentId gen).1.handleProgressEvent e agentId gen').2 = []) := by
  constructor
  · intro st e agentId gen pid msg hpid hkey ev hev
    unfold InsightAgent.handleProgressEvent at hev
    rw [hpid] at hev
    rcases hprog : (match e.payload.lookup "progress" with
      | some (.leaf .jnull) => none
      | x => x) with _ | prog
    · rw [hprog] at hev
      simp at hev
    · rw [hprog] at hev
      dsimp only at hev
      by_cases htr : pid.truthy = true
      · rw [if_neg (by simp [htr])] at hev
        unfold InsightAgent.checkProjectProgress at hev
        rcases hlook : List.lookup pid
            ({ st with projectProgress := dictSet st.projectProgress pid prog }
              : InsightAgent).projectProgress with _ | progVal
        · rw [hlook] at hev
          simp at hev
        · rw [hlook] at hev
          dsimp only at hev
          rcases hpf : toPyFloat progVal with _ | p
          · rw [hpf] at hev
            simp at hev
          · rw [hpf] at hev
            obtain ⟨m, hm, hnk, j, hj⟩ :=
              publishCandidates_published pid e.id agentId gen _ 0 _ ev hev
            intro hmsg
            rw [hj, createInsightRaised_message] at hmsg
            have hmm : m = msg := by
              have := Option.some.inj hmsg
              simpa [JVal.str] using this
            subst hmm
            exact hnk hkey
      · simp only [Bool.not_eq_true] at htr
        rw [if_pos (by simp [htr])] at hev
        simp at hev
  · intro st e agentId gen gen'
    rcases h1 : e.subject.lookup "projectId" with _ | pid
    · unfold InsightAgent.handleProgressEvent
      rw [h1]
    · rcases hprog : (match e.payload.lookup "progress" with
        | some (.leaf .jnull) => none
        | x => x) with _ | prog
      · unfold InsightAgent.handleProgressEvent
        rw [h1, hprog]
      · by_cases htr : pid.truthy = true
        · have hfirst : st.handleProgressEvent e agentId gen
              = InsightAgent.checkProjectProgress
                  { st with projectProgress := dictSet st.projectProgress pid prog }
                  pid e.id agentId gen := by
            unfold InsightAgent.handleProgressEvent
            rw [h1, hprog]
            dsimp only
            rw [if_neg (by simp [htr])]
          have hsecond : (st.handleProgressEvent e agentId gen).1.handleProgressEvent e agentId gen'
              = InsightAgent.checkProjectProgress
                  { (st.handleProgressEvent e agentId gen).1 with
                    projectProgress :=
                      dictSet (st.handleProgressEvent e agentId gen).1.projectProgress pid prog }
                  pid e.id agentId gen' := by
            unfold InsightAgent.handleProgressEvent
            rw [h1, hprog]
            dsimp only
            rw [if_neg (by simp [htr])]
          rw [hsecond]
          unfold InsightAgent.checkProjectProgress
          rw [show ({ (st.handleProgressEvent e agentId gen).1 with
              projectProgress :=
                dictSet (st.handleProgressEvent e agentId gen).1.projectProgress pid prog }
              : InsightAgent).projectProgress
            = dictSet (st.handleProgressEvent e agentId gen).1.projectProgress pid prog from rfl]
          rw [lookup_dictSet_self]
          dsimp only
          rcases hpf : toPyFloat prog with _ | p
          · rfl
          · dsimp only
            have hkeys : ∀ m ∈ progressCandidates p,
                (jvalFmt pid ++ ":" ++ m) ∈ (st.handleProgressEvent e agentId gen).1.insights := by
              intro m hm
              rw [hfirst]
              unfold InsightAgent.checkProjectProgress
              rw [show ({ st with projectProgress := dictSet st.projectProgress pid prog }
                  : InsightAgent).projectProgress = dictSet st.projectProgress pid prog from rfl]
              rw [lookup_dictSet_self]
              dsimp only
              rw [hpf]
              exact publishCandidates_keys_after pid e.id agentId gen
                (progressCandidates p) 0 _ m hm
            have hall := publishCandidates_all_seen pid e.id agentId gen'
              (progressCandidates p) 0
              { (st.handleProgressEvent e agentId gen).1 with
                projectProgress :=
                  dictSet (st.handleProgressEvent e agentId gen).1.projectProgress pid prog }
              (by intro m hm; exact hkeys m hm)
            rw [hall]
        · simp only [Bool.not_eq_true] at htr
          unfold InsightAgent.handleProgressEvent
          rw [h1, hprog]
          dsimp only
          rw [if_pos (by simp [htr]), if_pos (by simp [htr])]

/-- The C7 witness event: progress 90 for proj-1 (hits the "nearly
complete" threshold). -/
def evPPC : Event := Event.create "agent" "ProjectProgressCalculated"
  [("projectId", JVal.str "proj-1")]
  [("progress", JVal.flo ⟨9000, 100⟩), ("completedTasks", JVal.int 9),
   ("totalTasks", JVal.int 10), ("calculatedAt", JVal.str "T")]
  (some "ev-ppc") "g" (some 101) 9 none

def gen7 : Nat → String × Int × String := fun n => ("id-" ++ toString n, 50 + (n : Int), "N")

/-- The insight agent that has already raised the matching threshold
insight for proj-1. -/
def ia7 : InsightAgent := ⟨[], [], ["proj-1:Project is nearly complete (90.0%)"]⟩

/-- C7 witness: with the key already in the dedup set nothing carrying
that message is published, and a replay of the same event publishes
nothing. -/
theorem C7_witness :
    (∀ ev ∈ (ia7.handleProgressEvent evPPC "ag" gen7).2,
      List.lookup "message" ev.payload
        ≠ some (JVal.str "Project is nearly complete (90.0%)"))
    ∧ (((⟨[], [], []⟩ : InsightAgent).handleProgressEvent evPPC "ag"
          gen7).1.handleProgressEvent evPPC "ag" gen7).2 = [] :=
  ⟨C7_insight_dedup.1 ia7 evPPC "ag" gen7 (JVal.str "proj-1")
      "Project is nearly complete (90.0%)" (by decide) (by decide),
   C7_insight_dedup.2 ⟨[], [], []⟩ evPPC "ag" gen7 gen7⟩

/-! ## C6 -/

theorem acyclic_nil : Acyclic [] := by
  intro x y he
  unfold Edge at he
  rw [adjGet_nil] at he
  simp at he

/-- The adjacency map recording A→B. -/
def adjAB : List (JVal × List JVal) := [(JVal.str "task-a", [JVal.str "task-b"])]

/-- A TaskUpdated fact for task-b whose new description mentions task-a,
so the agent considers adding the edge B→A. -/
def evTU : Event := Event.create "cli" "TaskUpdated"
  [("taskId", JVal.str "task-b"), ("projectId", JVal.str "p1")]
  [("updates", JVal.obj [("description", JLeaf.jstr "blocked by task-a")])]
  (some "ev-tu") "g" (some 200) 9 none

def gen6 : Nat → String × Int × String := fun n => ("dep-" ++ toString n, 300 + (n : Int), "N")

/-- C6: a candidate edge source→target is rejected exactly when the
agent's DFS from the target reaches the source (`_would_create_cycle`
decides reachability); consequently every event handled by the
RelationAgent preserves acyclicity of its adjacency map; and in
particular, with A→B recorded, a fact suggesting B→A publishes no
DependencyAdded and leaves the map without the reverse edge. -/
theorem C6_cycle_rejection :
    (∀ (adj : List (JVal × List JVal)) (s t : JVal),
      RelationAgent.wouldCreateCycle adj s t = true ↔ Reaches adj t s)
    ∧ (∀ (st : RelationAgent) (e : Event) (agentId : String)
        (gen : Nat → String × Int × String),
      Acyclic st.taskDeps → Acyclic (st.processEventImpl e agentId gen).1.taskDeps)
    ∧ (RelationAgent.wouldCreateCycle adjAB (JVal.str "task-b") (JVal.str "task-a") = true
       ∧ (RelationAgent.analyzeTaskForDependencies ⟨adjAB⟩ evTU "ag" gen6).1.taskDeps = adjAB
       ∧ (RelationAgent.analyzeTaskForDependencies ⟨adjAB⟩ evTU "ag" gen6).2 = []) := by
  refine ⟨wouldCreateCycle_iff_reaches, ?_, ?_⟩
  · intro st e agentId gen hac
    exact relationAgent_acyclic st e agentId gen hac
  · refine ⟨by decide, by decide, by decide⟩

/-- C6 witness: dispatching a task fact through the RelationAgent keeps
the (empty, hence acyclic) adjacency map acyclic. -/
theorem C6_witness :
    Acyclic ((RelationAgent.processEventImpl ⟨[]⟩ evTU "ag" gen6).1.taskDeps) :=
  C6_cycle_rejection.2.1 ⟨[]⟩ evTU "ag" gen6 acyclic_nil

/-! ## C8 -/

/-- The adjacency map A→[C,B], B→[C] on which the shared visited set
undercounts. -/
def adj8 : List (JVal × List JVal) :=
  [(JVal.str "task-a", [JVal.str "task-c", JVal.str "task-b"]),
   (JVal.str "task-b", [JVal.str "task-c"])]

def st8 : InsightAgent := ⟨[], adj8, []⟩

/-- C8 counterexample: from task-a the DFS first explores the branch to
task-c, marking it visited; the longer branch a→b→c then scores c as 0,
so the function returns 2 even though the dependency chain
a→b→c of depth 3 exists.  The claim that the function "returns the
longest dependency chain depth reachable from that task" is false. -/
theorem C8_counterexample :
    st8.getDependencyChainLength (JVal.str "task-a") = 2
    ∧ DepChain st8.taskDeps
        [JVal.str "task-a", JVal.str "task-b", JVal.str "task-c"]
    ∧ ([JVal.str "task-a", JVal.str "task-b", JVal.str "task-c"] : List JVal).length = 3 := by
  refine ⟨by decide, ?_, rfl⟩
  unfold DepChain
  refine List.Chain'.cons ?_ (List.Chain'.cons ?_ (List.chain'_singleton _))
  · show JVal.str "task-b" ∈ adjGet st8.taskDeps (JVal.str "task-a")
    decide
  · show JVal.str "task-c" ∈ adjGet st8.taskDeps (JVal.str "task-b")
    decide

/-- C8 amended: `_get_dependency_chain_length` terminates on every
finite adjacency map, cycles included — the fuelled model computes the
same value for every sufficient fuel; its result is the length of some
actually existing dependency chain starting at the task (hence a lower
bound of the longest chain, which it can undercount when branches share
nodes); a task with no outgoing dependencies has depth 1; and
`_check_dependency_insights` emits a warning exactly when the computed
depth exceeds 3 and the key taskId + ":dependency_chain" has not been
raised before. -/
theorem C8_chain_length :
    (∀ (st : InsightAgent) (t : JVal) (g : Nat), dfsFuel st.taskDeps ≤ g →
      (chainNode st.taskDeps g t []).1 = st.getDependencyChainLength t)
    ∧ (∀ (st : InsightAgent) (t : JVal),
      ∃ c : List JVal, c.head? = some t ∧ DepChain st.taskDeps c
        ∧ c.length = st.getDependencyChainLength t)
    ∧ (∀ (st : InsightAgent) (t : JVal), adjGet st.taskDeps t = [] →
      st.getDependencyChainLength t = 1)
    ∧ (∀ (st : InsightAgent) (srcT tgtT : JVal) (cb ag gi : String) (gts : Int) (now : String),
      (st.checkDependencyInsights srcT tgtT cb ag gi gts now).2 ≠ []
        ↔ (3 < st.getDependencyChainLength srcT
           ∧ (jvalFmt srcT ++ ":dependency_chain") ∉ st.insights)) := by
  refine ⟨?_, ?_, ?_, ?_⟩
  · intro st t g hg
    unfold InsightAgent.getDependencyChainLength
    have heq := (chain_fuel_irrel st.taskDeps g).1 (dfsFuel st.taskDeps) t [] hg (le_refl _)
    rw [heq]
  · intro st t
    obtain ⟨c, hh, hch, hlen, -⟩ :=
      (chain_realizable st.taskDeps (dfsFuel st.taskDeps)).1 t [] (by simp) (le_refl _)
    exact ⟨c, hh, hch, hlen⟩
  · intro st t h
    unfold InsightAgent.getDependencyChainLength
    rw [show dfsFuel st.taskDeps = searchMeasure st.taskDeps [] + 1 from rfl]
    rw [chainNode, if_neg (by simp)]
    dsimp only
    rw [h, chainDeps_nil]
  · intro st srcT tgtT cb ag gi gts now
    unfold InsightAgent.checkDependencyInsights
    by_cases h3 : st.getDependencyChainLength srcT > 3
    · rw [if_pos h3]
      by_cases hk : (jvalFmt srcT ++ ":dependency_chain") ∈ st.insights
      · rw [if_pos hk]
        simp [h3, hk]
      · rw [if_neg hk]
        simp [h3, hk]
    · rw [if_neg h3]
      simp [h3]

/-- C8 witness: fuel irrelevance and the leaf case at concrete
inputs. -/
theorem C8_witness :
    (chainNode st8.taskDeps (dfsFuel st8.taskDeps + 5) (JVal.str "task-a") []).1
      = st8.getDependencyChainLength (JVal.str "task-a")
    ∧ st8.getDependencyChainLength (JVal.str "task-x") = 1 :=
  ⟨C8_chain_length.1 st8 (JVal.str "task-a") _ (Nat.le_add_right _ 5),
   C8_chain_length.2.2.1 st8 (JVal.str "task-x") (by decide)⟩

/-! ## C4 -/

/-- Two facts with equal timestamps, appended a then b. -/
def ev4a : Event := Event.create "s" "K" [] [] (some "a") "g" (some 5) 9 none

def ev4b : Event := Event.create "s" "K" [] [] (some "b") "g" (some 5) 9 none

def st4 : FactStore := ((FactStore.empty.append ev4a).2.append ev4b).2

/-- C4 counterexample: with facts `a` then `b` appended at the same
timestamp, `get_latest 2` returns them as [b, a] — the sorted set breaks
score ties by member byte order and `ZREVRANGE` walks it backwards — not
in insertion order [a, b] as the claim states.  Moreover `get_latest 0`
(stop index −1) returns the whole range, not 0 facts, contradicting
"for every k ... the k most recently appended facts". -/
theorem C4_counterexample :
    (st4.getLatest 2 "g" 9).map Event.id = ["b", "a"]
    ∧ (st4.getLatest 0 "g" 9).length = 2 := by decide

/-- C4 amended: for every well-formed store state and k ≥ 1,
`get_latest k` returns the min(k, n) facts with the greatest timestamps
ordered by timestamp descending, with equal timestamps ordered by
descending id byte order (the Redis sorted-set member order) rather
than insertion order: the result's length is min(k, n), it is strictly
descending in (timestamp, id), every returned fact is a time-index
entry, and every non-returned index entry sorts strictly below every
returned fact. -/
theorem C4_getLatest_order (s : FactStore) (k : Int) (genId : String) (genTs : Int)
    (hwf : StoreWF s) (hk : 1 ≤ k) :
    (s.getLatest k genId genTs).length = min k.toNat s.timeIndex.length
    ∧ List.Chain' (fun a b => zLtP (b.id, b.ts) (a.id, a.ts)) (s.getLatest k genId genTs)
    ∧ (∀ ev ∈ s.getLatest k genId genTs, (ev.id, ev.ts) ∈ s.timeIndex)
    ∧ (∀ p ∈ s.timeIndex,
        (∀ ev ∈ s.getLatest k genId genTs, ¬(ev.id = p.1 ∧ ev.ts = p.2)) →
        ∀ ev ∈ s.getLatest k genId genTs, zLtP p (ev.id, ev.ts)) := by
  have hE := getLatest_entries s k genId genTs hwf hk
  refine ⟨?_, ?_, ?_, ?_⟩
  · have hlen := congrArg List.length hE
    simp only [List.length_map, List.length_take, List.length_reverse] at hlen
    exact hlen
  · have hrev : List.Chain' (fun a b => zLtP b a) s.timeIndex.reverse := by
      rw [List.chain'_reverse]
      exact (zSortedB_chain' _).mp hwf.1
    have htake := hrev.take k.toNat
    rw [← hE] at htake
    rw [List.chain'_map] at htake
    exact htake
  · intro ev hev
    have hmem : (ev.id, ev.ts) ∈ (s.getLatest k genId genTs).map (fun ev => (ev.id, ev.ts)) :=
      List.mem_map_of_mem _ hev
    rw [hE] at hmem
    exact List.mem_reverse.mp (List.mem_of_mem_take hmem)
  · intro p hp hnone ev hev
    have hpw : List.Pairwise zLtP s.timeIndex :=
      List.chain'_iff_pairwise.mp ((zSortedB_chain' _).mp hwf.1)
    have hpwrev : List.Pairwise (fun a b => zLtP b a) s.timeIndex.reverse := by
      rw [List.pairwise_reverse]
      exact hpw
    have hsplit : s.timeIndex.reverse
        = s.timeIndex.reverse.take k.toNat ++ s.timeIndex.reverse.drop k.toNat :=
      (List.take_append_drop _ _).symm
    have hpair : (ev.id, ev.ts) ∈ s.timeIndex.reverse.take k.toNat := by
      rw [← hE]
      exact List.mem_map_of_mem _ hev
    have hpdrop : p ∈ s.timeIndex.reverse.drop k.toNat := by
      have hprev : p ∈ s.timeIndex.reverse := List.mem_reverse.mpr hp
      rw [hsplit] at hprev
      rcases List.mem_append.mp hprev with h | h
      · exfalso
        rw [← hE] at h
        obtain ⟨ev', hev', heq⟩ := List.mem_map.mp h
        exact hnone ev' hev' ⟨congrArg Prod.fst heq, congrArg Prod.snd heq⟩
      · exact h
    have hpwsplit := hpwrev
    rw [hsplit] at hpwsplit
    exact (List.pairwise_append.mp hpwsplit).2.2 (ev.id, ev.ts) hpair p hpdrop

/-- C4 witness: the amended ordering statement at the concrete two-fact
store. -/
theorem C4_witness :
    (st4.getLatest 2 "g" 9).length = min (2 : Int).toNat st4.timeIndex.length
    ∧ List.Chain' (fun a b => zLtP (b.id, b.ts) (a.id, a.ts)) (st4.getLatest 2 "g" 9)
    ∧ (∀ ev ∈ st4.getLatest 2 "g" 9, (ev.id, ev.ts) ∈ st4.timeIndex)
    ∧ (∀ p ∈ st4.timeIndex,
        (∀ ev ∈ st4.getLatest 2 "g" 9, ¬(ev.id = p.1 ∧ ev.ts = p.2)) →
        ∀ ev ∈ st4.getLatest 2 "g" 9, zLtP p (ev.id, ev.ts)) :=
  C4_getLatest_order st4 2 "g" 9 (by decide) (by decide)
